import Mathlib

/-!
Verification of the AST code chunker (`ast_code_chunker/ast_chunker.py`).

A shallow embedding of the chunker: Python strings are Lean `String`s,
Python's AST is modelled by the inductive `Stmt`/`Module` below (carrying the
1-based `lineno`/`end_lineno` position data the chunker reads), and the
chunker's methods are translated function by function.  `ast.parse` itself is
external (CPython); it is modelled as an input of type `ParseResult`.
A Python `TypeError` escaping `chunk_code` is modelled by `Except PyError`.
All definitions are executable so that concrete runs can be evaluated by
`decide`.
-/

namespace Chunker

/-! ## Python string primitives -/

/-- The characters Python's `str.splitlines` treats as line boundaries
(`\r\n` is additionally handled as a single boundary):
LF, CR, VT, FF, FS, GS, RS, NEL, LINE SEPARATOR, PARAGRAPH SEPARATOR. -/
def isLineBreak (c : Char) : Bool :=
  let n := c.toNat
  n = 10 || n = 13 || n = 11 || n = 12 || n = 28 || n = 29 || n = 30 ||
  n = 133 || n = 8232 || n = 8233

/-- Characters Python's `str.isspace`/`str.lstrip` treat as whitespace. -/
def pyIsSpace (c : Char) : Bool :=
  let n := c.toNat
  n = 32 || n = 9 || n = 10 || n = 13 || n = 11 || n = 12 ||
  (28 <= n && n <= 31) || n = 133 || n = 160 || n = 5760 ||
  (8192 <= n && n <= 8202) || n = 8232 || n = 8233 || n = 8239 ||
  n = 8287 || n = 12288

/-- Python `str.splitlines` on a list of characters.  A trailing line terminator
does not produce a final empty line. -/
def splitlinesAux : List Char → List Char → List (List Char)
  | [], [] => []
  | [], acc => [acc.reverse]
  | '\r' :: '\n' :: rest, acc => acc.reverse :: splitlinesAux rest []
  | c :: rest, acc =>
    if isLineBreak c then acc.reverse :: splitlinesAux rest []
    else splitlinesAux rest (c :: acc)

/-- Python `source.splitlines()`. -/
def pySplitlines (s : String) : List String :=
  (splitlinesAux s.toList []).map String.mk

/-- Python `text.split('\n')` (always at least one element). -/
def splitNl : List Char → List (List Char)
  | [] => [[]]
  | c :: rest =>
    if c = '\n' then [] :: splitNl rest
    else
      match splitNl rest with
      | [] => [[c]]
      | t :: ts => (c :: t) :: ts

/-- Python `'\nsep'.join`. -/
def joinSep (sep : String) : List String → String
  | [] => ""
  | [x] => x
  | x :: y :: xs => x ++ sep ++ joinSep sep (y :: xs)

/-- Python `content[:n]` on a `str` (slicing by code points). -/
def strTake (s : String) (n : Nat) : String :=
  String.mk (s.toList.take n)

/-- Python `s.startswith(pre)`. -/
def strStarts (s pre : String) : Bool :=
  pre.toList.isPrefixOf s.toList

/-- Python `s.endswith(suf)`. -/
def strEnds (s suf : String) : Bool :=
  suf.toList.reverse.isPrefixOf s.toList.reverse

/-- Python `s.lstrip()` (default whitespace stripping). -/
def pyLstrip (s : String) : String :=
  String.mk (s.toList.dropWhile pyIsSpace)

/-- Longest common prefix of two character lists. -/
def lcp : List Char → List Char → List Char
  | a :: as, b :: bs => if a = b then a :: lcp as bs else []
  | _, _ => []

/-- A line consisting only of spaces/tabs (as matched by `textwrap`'s
`_whitespace_only_re`, which normalises such lines to empty). -/
def wsOnlyLine (l : List Char) : Bool :=
  !l.isEmpty && l.all (fun c => c = ' ' || c = '\t')

/-- The leading run of spaces/tabs of a line (as captured by `textwrap`'s
`_leading_whitespace_re` on lines that contain a non-blank character). -/
def leadingWs (l : List Char) : List Char :=
  l.takeWhile (fun c => c = ' ' || c = '\t')

/-- Python `textwrap.dedent`: blank (space/tab-only) lines are emptied, the
longest common space/tab margin of the remaining non-empty lines is computed,
and that margin is removed from the start of every line that carries it. -/
def pyDedent (text : String) : String :=
  let lines0 := splitNl text.toList
  let lines := lines0.map (fun l => if wsOnlyLine l then [] else l)
  let indents := lines.filterMap (fun l => if l = [] then none else some (leadingWs l))
  let margin :=
    match indents with
    | [] => []
    | i :: is => is.foldl (fun m ind => lcp m ind) i
  let outLines :=
    if margin = [] then lines
    else lines.map (fun l => if margin.isPrefixOf l then l.drop margin.length else l)
  joinSep "\n" (outLines.map String.mk)

/-- Python `str.expandtabs()` with the default tab size 8: the column counter
advances per character and is reset by `\n` and `\r`. -/
def expandtabsAux : List Char → Nat → List Char
  | [], _ => []
  | c :: rest, col =>
    if c = '\t' then
      let pad := 8 - col % 8
      List.replicate pad ' ' ++ expandtabsAux rest (col + pad)
    else if c = '\n' || c = '\r' then c :: expandtabsAux rest 0
    else c :: expandtabsAux rest (col + 1)

/-- Python `inspect.cleandoc` (what `ast.get_docstring` applies by default):
expand tabs, drop the common indentation of all lines after the first,
left-strip the first line, and remove leading/trailing blank lines. -/
def cleandoc (doc : String) : String :=
  let lines := (splitNl (expandtabsAux doc.toList 0)).map String.mk
  let margin : Option Nat := lines.tail.foldl
    (fun m line =>
      let stripped := pyLstrip line
      if stripped = "" then m
      else
        let indent := line.length - stripped.length
        match m with
        | none => some indent
        | some v => some (min v indent))
    none
  let lines1 :=
    match lines with
    | [] => []
    | first :: rest =>
      pyLstrip first ::
        (match margin with
          | none => rest
          | some v => rest.map (fun (l : String) => String.mk (l.toList.drop v)))
  let lines2 := (lines1.reverse.dropWhile (· = "")).reverse
  let lines3 := lines2.dropWhile (· = "")
  joinSep "\n" lines3

/-! ## MD5 (the hash behind `hashlib.md5(...).hexdigest()`), over `Nat` -/

/-- UTF-8 encoding of one unicode scalar value (Python `str.encode()`). -/
def utf8Char (c : Char) : List Nat :=
  let n := c.toNat
  if n < 128 then [n]
  else if n < 2048 then [192 + n / 64, 128 + n % 64]
  else if n < 65536 then [224 + n / 4096, 128 + (n / 64) % 64, 128 + n % 64]
  else [240 + n / 262144, 128 + (n / 4096) % 64, 128 + (n / 64) % 64, 128 + n % 64]

/-- UTF-8 bytes of a string, as `Nat`s below 256. -/
def utf8Bytes (s : String) : List Nat :=
  s.toList.flatMap utf8Char

/-- Truncation to 32 bits. -/
def m32 (n : Nat) : Nat := n % 4294967296

/-- Bitwise complement on 32 bits (argument assumed `< 2^32`). -/
def not32 (x : Nat) : Nat := 4294967295 - x

/-- Left rotation on 32 bits (argument assumed `< 2^32`, `0 < s < 32`). -/
def rotl32 (x s : Nat) : Nat :=
  (x * 2 ^ s) % 4294967296 + x / 2 ^ (32 - s)

/-- The 64 MD5 sine-derived constants. -/
def md5K : List Nat :=
  [0xd76aa478, 0xe8c7b756, 0x242070db, 0xc1bdceee,
   0xf57c0faf, 0x4787c62a, 0xa8304613, 0xfd469501,
   0x698098d8, 0x8b44f7af, 0xffff5bb1, 0x895cd7be,
   0x6b901122, 0xfd987193, 0xa679438e, 0x49b40821,
   0xf61e2562, 0xc040b340, 0x265e5a51, 0xe9b6c7aa,
   0xd62f105d, 0x02441453, 0xd8a1e681, 0xe7d3fbc8,
   0x21e1cde6, 0xc33707d6, 0xf4d50d87, 0x455a14ed,
   0xa9e3e905, 0xfcefa3f8, 0x676f02d9, 0x8d2a4c8a,
   0xfffa3942, 0x8771f681, 0x6d9d6122, 0xfde5380c,
   0xa4beea44, 0x4bdecfa9, 0xf6bb4b60, 0xbebfbc70,
   0x289b7ec6, 0xeaa127fa, 0xd4ef3085, 0x04881d05,
   0xd9d4d039, 0xe6db99e5, 0x1fa27cf8, 0xc4ac5665,
   0xf4292244, 0x432aff97, 0xab9423a7, 0xfc93a039,
   0x655b59c3, 0x8f0ccc92, 0xffeff47d, 0x85845dd1,
   0x6fa87e4f, 0xfe2ce6e0, 0xa3014314, 0x4e0811a1,
   0xf7537e82, 0xbd3af235, 0x2ad7d2bb, 0xeb86d391]

/-- The 64 MD5 per-round shift amounts. -/
def md5S : List Nat :=
  [7, 12, 17, 22, 7, 12, 17, 22, 7, 12, 17, 22, 7, 12, 17, 22,
   5, 9, 14, 20, 5, 9, 14, 20, 5, 9, 14, 20, 5, 9, 14, 20,
   4, 11, 16, 23, 4, 11, 16, 23, 4, 11, 16, 23, 4, 11, 16, 23,
   6, 10, 15, 21, 6, 10, 15, 21, 6, 10, 15, 21, 6, 10, 15, 21]

/-- MD5 message padding: `0x80`, zeros to 56 mod 64, then the original bit
length as 8 little-endian bytes. -/
def md5pad (msg : List Nat) : List Nat :=
  let len := msg.length
  let z := (56 + 64 - (len + 1) % 64) % 64
  let bitLen := (len * 8) % 18446744073709551616
  msg ++ [128] ++ List.replicate z 0 ++
    (List.range 8).map (fun i => bitLen / 256 ^ i % 256)

/-- The 16 little-endian 32-bit words of one 64-byte block. -/
def md5Words (block : List Nat) : List Nat :=
  (List.range 16).map (fun j =>
    block.getD (4 * j) 0 + 256 * block.getD (4 * j + 1) 0 +
    65536 * block.getD (4 * j + 2) 0 + 16777216 * block.getD (4 * j + 3) 0)

/-- One of the 64 MD5 operations, acting on the state `(a, b, c, d)`. -/
def md5Op (w : List Nat) (st : Nat × Nat × Nat × Nat) (i : Nat) :
    Nat × Nat × Nat × Nat :=
  let (a, b, c, d) := st
  let (f, g) :=
    if i < 16 then ((b &&& c) ||| (not32 b &&& d), i)
    else if i < 32 then ((d &&& b) ||| (not32 d &&& c), (5 * i + 1) % 16)
    else if i < 48 then (b ^^^ c ^^^ d, (3 * i + 5) % 16)
    else (c ^^^ (b ||| not32 d), (7 * i) % 16)
  let tmp := m32 (a + f + md5K.getD i 0 + w.getD g 0)
  (d, m32 (b + rotl32 tmp (md5S.getD i 7)), b, c)

/-- Process one 64-byte block. -/
def md5Block (st : Nat × Nat × Nat × Nat) (block : List Nat) :
    Nat × Nat × Nat × Nat :=
  let w := md5Words block
  let (a, b, c, d) := (List.range 64).foldl (md5Op w) st
  let (a0, b0, c0, d0) := st
  (m32 (a0 + a), m32 (b0 + b), m32 (c0 + c), m32 (d0 + d))

/-- Split a byte list into 64-byte blocks (fuel-structured so the kernel can
evaluate it; the fuel `l.length` is always sufficient). -/
def blocks64Aux : Nat → List Nat → List (List Nat)
  | 0, _ => []
  | _, [] => []
  | fuel + 1, a :: rest => (a :: rest.take 63) :: blocks64Aux fuel (rest.drop 63)

/-- Split a byte list into 64-byte blocks. -/
def blocks64 (l : List Nat) : List (List Nat) :=
  blocks64Aux l.length l

/-- One hexadecimal digit. -/
def hexDigit (n : Nat) : Char :=
  if n = 0 then '0' else if n = 1 then '1' else if n = 2 then '2'
  else if n = 3 then '3' else if n = 4 then '4' else if n = 5 then '5'
  else if n = 6 then '6' else if n = 7 then '7' else if n = 8 then '8'
  else if n = 9 then '9' else if n = 10 then 'a' else if n = 11 then 'b'
  else if n = 12 then 'c' else if n = 13 then 'd' else if n = 14 then 'e'
  else 'f'

/-- Two lowercase hex digits of a byte. -/
def hexByte (b : Nat) : List Char :=
  [hexDigit (b / 16), hexDigit (b % 16)]

/-- The four little-endian bytes of a 32-bit word. -/
def le4 (x : Nat) : List Nat :=
  [x % 256, x / 256 % 256, x / 65536 % 256, x / 16777216 % 256]

/-- Python `hashlib.md5(bytes).hexdigest()`: the 32-character lowercase hex MD5
digest of a byte list. -/
def md5hex (msg : List Nat) : String :=
  let st := blocks64 (md5pad msg) |>.foldl md5Block
    (1732584193, 4023233417, 2562383102, 271733878)
  let (a, b, c, d) := st
  String.mk ((le4 a ++ le4 b ++ le4 c ++ le4 d).flatMap hexByte)

/-! ## The Python AST, as read by the chunker

Only the node kinds and fields the chunker inspects are carried:
statement kind, `lineno`/`end_lineno` (1-based, as produced by `ast.parse`),
names, and nested statement bodies.  Expressions never contain statements in
Python, so they are not modelled; compound statements other than
class/function definitions are collapsed into `Stmt.other`, carrying the
concatenation of their nested statement lists.  `ast.Import`/`ast.ImportFrom`
carry the `alias.name`s of their targets; `ast.Expr` wrapping a string
constant (the docstring form recognised by `ast.get_docstring`) is
`exprConstStr`.  Python compares AST nodes by object identity; structural
equality of nodes with their positions is a faithful proxy, since two
distinct statements in one file never agree on kind, position and contents.
-/

/-- An assignment target: a plain name, or anything else. -/
inductive Target where
  | name (id : String)
  | other
deriving DecidableEq, Repr

/-- A Python statement, with the fields the chunker reads. -/
inductive Stmt where
  | importStmt (lineno end_lineno : Nat) (names : List String)
  | importFrom (lineno end_lineno : Nat) (module : Option String) (names : List String)
  | assign (lineno end_lineno : Nat) (targets : List Target)
  | annAssign (lineno end_lineno : Nat) (target : Target)
  | classDef (lineno end_lineno : Nat) (name : String) (body : List Stmt)
  | functionDef (lineno end_lineno : Nat) (name : String) (args : List String)
      (hasReturns : Bool) (body : List Stmt)
  | asyncFunctionDef (lineno end_lineno : Nat) (name : String) (args : List String)
      (hasReturns : Bool) (body : List Stmt)
  | exprConstStr (lineno end_lineno : Nat) (value : String)
  | other (lineno end_lineno : Nat) (body : List Stmt)

mutual

/-- Decidable equality of statements (structural, so the kernel can
evaluate it; Python compares AST nodes by identity, for which structural
equality with positions is a faithful proxy). -/
def stmtDecEq : (a b : Stmt) → Decidable (a = b)
  | .importStmt l1 e1 n1, .importStmt l2 e2 n2 =>
    if h : l1 = l2 ∧ e1 = e2 ∧ n1 = n2 then
      isTrue (by obtain ⟨rfl, rfl, rfl⟩ := h; rfl)
    else isFalse (by intro he; injection he with h0 h1 h2; exact h ⟨h0, h1, h2⟩)
  | .importFrom l1 e1 m1 n1, .importFrom l2 e2 m2 n2 =>
    if h : l1 = l2 ∧ e1 = e2 ∧ m1 = m2 ∧ n1 = n2 then
      isTrue (by obtain ⟨rfl, rfl, rfl, rfl⟩ := h; rfl)
    else isFalse (by intro he; injection he with h0 h1 h2 h3; exact h ⟨h0, h1, h2, h3⟩)
  | .assign l1 e1 t1, .assign l2 e2 t2 =>
    if h : l1 = l2 ∧ e1 = e2 ∧ t1 = t2 then
      isTrue (by obtain ⟨rfl, rfl, rfl⟩ := h; rfl)
    else isFalse (by intro he; injection he with h0 h1 h2; exact h ⟨h0, h1, h2⟩)
  | .annAssign l1 e1 t1, .annAssign l2 e2 t2 =>
    if h : l1 = l2 ∧ e1 = e2 ∧ t1 = t2 then
      isTrue (by obtain ⟨rfl, rfl, rfl⟩ := h; rfl)
    else isFalse (by intro he; injection he with h0 h1 h2; exact h ⟨h0, h1, h2⟩)
  | .classDef l1 e1 n1 b1, .classDef l2 e2 n2 b2 =>
    have : Decidable (b1 = b2) := stmtsDecEq b1 b2
    if h : l1 = l2 ∧ e1 = e2 ∧ n1 = n2 ∧ b1 = b2 then
      isTrue (by obtain ⟨rfl, rfl, rfl, rfl⟩ := h; rfl)
    else isFalse (by intro he; injection he with h0 h1 h2 h3; exact h ⟨h0, h1, h2, h3⟩)
  | .functionDef l1 e1 n1 a1 r1 b1, .functionDef l2 e2 n2 a2 r2 b2 =>
    have : Decidable (b1 = b2) := stmtsDecEq b1 b2
    if h : l1 = l2 ∧ e1 = e2 ∧ n1 = n2 ∧ a1 = a2 ∧ r1 = r2 ∧ b1 = b2 then
      isTrue (by obtain ⟨rfl, rfl, rfl, rfl, rfl, rfl⟩ := h; rfl)
    else isFalse (by intro he; injection he with h0 h1 h2 h3 h4 h5; exact h ⟨h0, h1, h2, h3, h4, h5⟩)
  | .asyncFunctionDef l1 e1 n1 a1 r1 b1, .asyncFunctionDef l2 e2 n2 a2 r2 b2 =>
    have : Decidable (b1 = b2) := stmtsDecEq b1 b2
    if h : l1 = l2 ∧ e1 = e2 ∧ n1 = n2 ∧ a1 = a2 ∧ r1 = r2 ∧ b1 = b2 then
      isTrue (by obtain ⟨rfl, rfl, rfl, rfl, rfl, rfl⟩ := h; rfl)
    else isFalse (by intro he; injection he with h0 h1 h2 h3 h4 h5; exact h ⟨h0, h1, h2, h3, h4, h5⟩)
  | .exprConstStr l1 e1 v1, .exprConstStr l2 e2 v2 =>
    if h : l1 = l2 ∧ e1 = e2 ∧ v1 = v2 then
      isTrue (by obtain ⟨rfl, rfl, rfl⟩ := h; rfl)
    else isFalse (by intro he; injection he with h0 h1 h2; exact h ⟨h0, h1, h2⟩)
  | .other l1 e1 b1, .other l2 e2 b2 =>
    have : Decidable (b1 = b2) := stmtsDecEq b1 b2
    if h : l1 = l2 ∧ e1 = e2 ∧ b1 = b2 then
      isTrue (by obtain ⟨rfl, rfl, rfl⟩ := h; rfl)
    else isFalse (by intro he; injection he with h0 h1 h2; exact h ⟨h0, h1, h2⟩)
  | .importStmt _ _ _, .importFrom _ _ _ _ => isFalse (fun h => Stmt.noConfusion h)
  | .importStmt _ _ _, .assign _ _ _ => isFalse (fun h => Stmt.noConfusion h)
  | .importStmt _ _ _, .annAssign _ _ _ => isFalse (fun h => Stmt.noConfusion h)
  | .importStmt _ _ _, .classDef _ _ _ _ => isFalse (fun h => Stmt.noConfusion h)
  | .importStmt _ _ _, .functionDef _ _ _ _ _ _ => isFalse (fun h => Stmt.noConfusion h)
  | .importStmt _ _ _, .asyncFunctionDef _ _ _ _ _ _ => isFalse (fun h => Stmt.noConfusion h)
  | .importStmt _ _ _, .exprConstStr _ _ _ => isFalse (fun h => Stmt.noConfusion h)
  | .importStmt _ _ _, .other _ _ _ => isFalse (fun h => Stmt.noConfusion h)
  | .importFrom _ _ _ _, .importStmt _ _ _ => isFalse (fun h => Stmt.noConfusion h)
  | .importFrom _ _ _ _, .assign _ _ _ => isFalse (fun h => Stmt.noConfusion h)
  | .importFrom _ _ _ _, .annAssign _ _ _ => isFalse (fun h => Stmt.noConfusion h)
  | .importFrom _ _ _ _, .classDef _ _ _ _ => isFalse (fun h => Stmt.noConfusion h)
  | .importFrom _ _ _ _, .functionDef _ _ _ _ _ _ => isFalse (fun h => Stmt.noConfusion h)
  | .importFrom _ _ _ _, .asyncFunctionDef _ _ _ _ _ _ => isFalse (fun h => Stmt.noConfusion h)
  | .importFrom _ _ _ _, .exprConstStr _ _ _ => isFalse (fun h => Stmt.noConfusion h)
  | .importFrom _ _ _ _, .other _ _ _ => isFalse (fun h => Stmt.noConfusion h)
  | .assign _ _ _, .importStmt _ _ _ => isFalse (fun h => Stmt.noConfusion h)
  | .assign _ _ _, .importFrom _ _ _ _ => isFalse (fun h => Stmt.noConfusion h)
  | .assign _ _ _, .annAssign _ _ _ => isFalse (fun h => Stmt.noConfusion h)
  | .assign _ _ _, .classDef _ _ _ _ => isFalse (fun h => Stmt.noConfusion h)
  | .assign _ _ _, .functionDef _ _ _ _ _ _ => isFalse (fun h => Stmt.noConfusion h)
  | .assign _ _ _, .asyncFunctionDef _ _ _ _ _ _ => isFalse (fun h => Stmt.noConfusion h)
  | .assign _ _ _, .exprConstStr _ _ _ => isFalse (fun h => Stmt.noConfusion h)
  | .assign _ _ _, .other _ _ _ => isFalse (fun h => Stmt.noConfusion h)
  | .annAssign _ _ _, .importStmt _ _ _ => isFalse (fun h => Stmt.noConfusion h)
  | .annAssign _ _ _, .importFrom _ _ _ _ => isFalse (fun h => Stmt.noConfusion h)
  | .annAssign _ _ _, .assign _ _ _ => isFalse (fun h => Stmt.noConfusion h)
  | .annAssign _ _ _, .classDef _ _ _ _ => isFalse (fun h => Stmt.noConfusion h)
  | .annAssign _ _ _, .functionDef _ _ _ _ _ _ => isFalse (fun h => Stmt.noConfusion h)
  | .annAssign _ _ _, .asyncFunctionDef _ _ _ _ _ _ => isFalse (fun h => Stmt.noConfusion h)
  | .annAssign _ _ _, .exprConstStr _ _ _ => isFalse (fun h => Stmt.noConfusion h)
  | .annAssign _ _ _, .other _ _ _ => isFalse (fun h => Stmt.noConfusion h)
  | .classDef _ _ _ _, .importStmt _ _ _ => isFalse (fun h => Stmt.noConfusion h)
  | .classDef _ _ _ _, .importFrom _ _ _ _ => isFalse (fun h => Stmt.noConfusion h)
  | .classDef _ _ _ _, .assign _ _ _ => isFalse (fun h => Stmt.noConfusion h)
  | .classDef _ _ _ _, .annAssign _ _ _ => isFalse (fun h => Stmt.noConfusion h)
  | .classDef _ _ _ _, .functionDef _ _ _ _ _ _ => isFalse (fun h => Stmt.noConfusion h)
  | .classDef _ _ _ _, .asyncFunctionDef _ _ _ _ _ _ => isFalse (fun h => Stmt.noConfusion h)
  | .classDef _ _ _ _, .exprConstStr _ _ _ => isFalse (fun h => Stmt.noConfusion h)
  | .classDef _ _ _ _, .other _ _ _ => isFalse (fun h => Stmt.noConfusion h)
  | .functionDef _ _ _ _ _ _, .importStmt _ _ _ => isFalse (fun h => Stmt.noConfusion h)
  | .functionDef _ _ _ _ _ _, .importFrom _ _ _ _ => isFalse (fun h => Stmt.noConfusion h)
  | .functionDef _ _ _ _ _ _, .assign _ _ _ => isFalse (fun h => Stmt.noConfusion h)
  | .functionDef _ _ _ _ _ _, .annAssign _ _ _ => isFalse (fun h => Stmt.noConfusion h)
  | .functionDef _ _ _ _ _ _, .classDef _ _ _ _ => isFalse (fun h => Stmt.noConfusion h)
  | .functionDef _ _ _ _ _ _, .asyncFunctionDef _ _ _ _ _ _ => isFalse (fun h => Stmt.noConfusion h)
  | .functionDef _ _ _ _ _ _, .exprConstStr _ _ _ => isFalse (fun h => Stmt.noConfusion h)
  | .functionDef _ _ _ _ _ _, .other _ _ _ => isFalse (fun h => Stmt.noConfusion h)
  | .asyncFunctionDef _ _ _ _ _ _, .importStmt _ _ _ => isFalse (fun h => Stmt.noConfusion h)
  | .asyncFunctionDef _ _ _ _ _ _, .importFrom _ _ _ _ => isFalse (fun h => Stmt.noConfusion h)
  | .asyncFunctionDef _ _ _ _ _ _, .assign _ _ _ => isFalse (fun h => Stmt.noConfusion h)
  | .asyncFunctionDef _ _ _ _ _ _, .annAssign _ _ _ => isFalse (fun h => Stmt.noConfusion h)
  | .asyncFunctionDef _ _ _ _ _ _, .classDef _ _ _ _ => isFalse (fun h => Stmt.noConfusion h)
  | .asyncFunctionDef _ _ _ _ _ _, .functionDef _ _ _ _ _ _ => isFalse (fun h => Stmt.noConfusion h)
  | .asyncFunctionDef _ _ _ _ _ _, .exprConstStr _ _ _ => isFalse (fun h => Stmt.noConfusion h)
  | .asyncFunctionDef _ _ _ _ _ _, .other _ _ _ => isFalse (fun h => Stmt.noConfusion h)
  | .exprConstStr _ _ _, .importStmt _ _ _ => isFalse (fun h => Stmt.noConfusion h)
  | .exprConstStr _ _ _, .importFrom _ _ _ _ => isFalse (fun h => Stmt.noConfusion h)
  | .exprConstStr _ _ _, .assign _ _ _ => isFalse (fun h => Stmt.noConfusion h)
  | .exprConstStr _ _ _, .annAssign _ _ _ => isFalse (fun h => Stmt.noConfusion h)
  | .exprConstStr _ _ _, .classDef _ _ _ _ => isFalse (fun h => Stmt.noConfusion h)
  | .exprConstStr _ _ _, .functionDef _ _ _ _ _ _ => isFalse (fun h => Stmt.noConfusion h)
  | .exprConstStr _ _ _, .asyncFunctionDef _ _ _ _ _ _ => isFalse (fun h => Stmt.noConfusion h)
  | .exprConstStr _ _ _, .other _ _ _ => isFalse (fun h => Stmt.noConfusion h)
  | .other _ _ _, .importStmt _ _ _ => isFalse (fun h => Stmt.noConfusion h)
  | .other _ _ _, .importFrom _ _ _ _ => isFalse (fun h => Stmt.noConfusion h)
  | .other _ _ _, .assign _ _ _ => isFalse (fun h => Stmt.noConfusion h)
  | .other _ _ _, .annAssign _ _ _ => isFalse (fun h => Stmt.noConfusion h)
  | .other _ _ _, .classDef _ _ _ _ => isFalse (fun h => Stmt.noConfusion h)
  | .other _ _ _, .functionDef _ _ _ _ _ _ => isFalse (fun h => Stmt.noConfusion h)
  | .other _ _ _, .asyncFunctionDef _ _ _ _ _ _ => isFalse (fun h => Stmt.noConfusion h)
  | .other _ _ _, .exprConstStr _ _ _ => isFalse (fun h => Stmt.noConfusion h)

/-- Decidable equality of statement lists. -/
def stmtsDecEq : (a b : List Stmt) → Decidable (a = b)
  | [], [] => isTrue rfl
  | x :: xs, y :: ys =>
    have : Decidable (x = y) := stmtDecEq x y
    have : Decidable (xs = ys) := stmtsDecEq xs ys
    if h : x = y ∧ xs = ys then isTrue (by obtain ⟨rfl, rfl⟩ := h; rfl)
    else isFalse (by intro he; injection he with h1 h2; exact h ⟨h1, h2⟩)
  | [], _ :: _ => isFalse (fun h => List.noConfusion h)
  | _ :: _, [] => isFalse (fun h => List.noConfusion h)

end

instance : DecidableEq Stmt := stmtDecEq

/-- Python `ast.Module`. -/
structure Module where
  body : List Stmt
deriving DecidableEq

/-- Python `node.lineno`. -/
def Stmt.lineno : Stmt → Nat
  | .importStmt l _ _ => l
  | .importFrom l _ _ _ => l
  | .assign l _ _ => l
  | .annAssign l _ _ => l
  | .classDef l _ _ _ => l
  | .functionDef l _ _ _ _ _ => l
  | .asyncFunctionDef l _ _ _ _ _ => l
  | .exprConstStr l _ _ => l
  | .other l _ _ => l

/-- The child statements of a statement (the statement-valued part of
`ast.iter_child_nodes`; expression children carry no statements). -/
def Stmt.children : Stmt → List Stmt
  | .classDef _ _ _ b => b
  | .functionDef _ _ _ _ _ b => b
  | .asyncFunctionDef _ _ _ _ _ b => b
  | .other _ _ b => b
  | _ => []

mutual

/-- Number of statement nodes in a statement's subtree (itself included). -/
def stmtSize : Stmt → Nat
  | .classDef _ _ _ b => 1 + stmtsSize b
  | .functionDef _ _ _ _ _ b => 1 + stmtsSize b
  | .asyncFunctionDef _ _ _ _ _ b => 1 + stmtsSize b
  | .other _ _ b => 1 + stmtsSize b
  | _ => 1

/-- Number of statement nodes in a forest. -/
def stmtsSize : List Stmt → Nat
  | [] => 0
  | s :: rest => stmtSize s + stmtsSize rest
end

/-- Breadth-first traversal (`ast.walk`) of a queue of statements,
fuel-structured so the kernel can evaluate it; `stmtsSize` fuel is exact. -/
def walkAux : Nat → List Stmt → List Stmt
  | 0, _ => []
  | _, [] => []
  | fuel + 1, s :: q => s :: walkAux fuel (q ++ s.children)

/-- Python `ast.walk(tree)` restricted to statements: the module node itself (which
is never a class, function or import) is omitted. -/
def walkStmts (l : List Stmt) : List Stmt :=
  walkAux (stmtsSize l) l

/-- Python `isinstance(node, (ast.Import, ast.ImportFrom))`. -/
def Stmt.isImportNode : Stmt → Bool
  | .importStmt _ _ _ => true
  | .importFrom _ _ _ _ => true
  | _ => false

/-- Python `isinstance(node, ast.FunctionDef)` (false for `AsyncFunctionDef`, which
is not a subclass). -/
def Stmt.isFunctionDef : Stmt → Bool
  | .functionDef _ _ _ _ _ _ => true
  | _ => false

/-- Python `isinstance(node, ast.ClassDef)`. -/
def Stmt.isClassDef : Stmt → Bool
  | .classDef _ _ _ _ => true
  | _ => false

/-- A class definition carrying the given name (for stating uniqueness
hypotheses decidably). -/
def Stmt.isClassDefNamed (cn : String) : Stmt → Bool
  | .classDef _ _ n _ => n == cn
  | _ => false

/-- Python `ast.get_docstring(node)`: the string constant heading the body, cleaned
with `inspect.cleandoc` (the default `clean=True`). -/
def get_docstring (body : List Stmt) : Option String :=
  match body with
  | .exprConstStr _ _ v :: _ => some (cleandoc v)
  | _ => none

/-! ## The chunker's data model -/

/-- A scalar metadata value (the chunker only stores strings, ints, bools). -/
inductive MetaVal where
  | str (s : String)
  | nat (n : Nat)
  | bool (b : Bool)
deriving DecidableEq, Repr

/-- Python `CodeChunk` (the `@dataclass`): metadata is an insertion-ordered
string-keyed mapping. -/
structure CodeChunk where
  id : String
  content : String
  chunk_type : String
  metadata : List (String × MetaVal)
  start_line : Nat
  end_line : Nat
  file_path : String
  language : String := "python"
  parent_context : Option String := none
deriving DecidableEq, Repr

/-- Look up one metadata key. -/
def CodeChunk.meta (c : CodeChunk) (k : String) : Option MetaVal :=
  (c.metadata.find? (fun p => p.1 == k)).map (fun p => p.2)

/-- The Python error that can escape `chunk_code`, and the explicit
`FileNotFoundError` of `chunk_file`. -/
inductive PyError where
  | typeError
  | fileNotFound (path : String)
deriving DecidableEq, Repr

/-- The outcome of `ast.parse` (external to this repository): a tree, or a
`SyntaxError`. -/
inductive ParseResult where
  | ok (tree : Module)
  | syntaxError

instance {α : Type} [DecidableEq α] : DecidableEq (Except PyError α) := fun a b =>
  match a, b with
  | .ok x, .ok y =>
    if h : x = y then isTrue (by rw [h]) else isFalse (by simp [h])
  | .error x, .error y =>
    if h : x = y then isTrue (by rw [h]) else isFalse (by simp [h])
  | .ok _, .error _ => isFalse (by simp)
  | .error _, .ok _ => isFalse (by simp)

/-! ## The chunker (`ASTCodeChunker`) -/

/-- Python `_create_chunk`'s id: `hashlib.md5(f"{file_path}:{start_line}:{content[:100]}".encode()).hexdigest()[:12]`. -/
def chunk_id (file_path : String) (start_line : Nat) (content : String) : String :=
  strTake (md5hex (utf8Bytes
    (file_path ++ ":" ++ Nat.repr start_line ++ ":" ++ strTake content 100))) 12

/-- Python `_create_chunk`. -/
def create_chunk (content chunk_type : String) (start_line end_line : Nat)
    (file_path : String) (parent_context : Option String)
    (metadata : List (String × MetaVal)) : CodeChunk :=
  { id := chunk_id file_path start_line content
    content := content
    chunk_type := chunk_type
    metadata := metadata
    start_line := start_line
    end_line := end_line
    file_path := file_path
    language := "python"
    parent_context := parent_context }

/-- Python `_count_lines`. -/
def count_lines (text : String) : Nat :=
  (pySplitlines text).length

/-- Python `node.end_lineno or node.lineno` (Python truthiness on ints). -/
def orLineno (end_lineno lineno : Nat) : Nat :=
  if end_lineno = 0 then lineno else end_lineno

/-- Python `_get_node_source(node, source)` with `include_body=True`:
`"\n".join(source.splitlines()[lineno-1:end_lineno])`, dedented; `None` when
the slice is empty. -/
def get_node_source (lineno end_lineno : Nat) (source : String) : Option String :=
  let lines := pySplitlines source
  let node_lines := (lines.drop (lineno - 1)).take (end_lineno - (lineno - 1))
  if node_lines = [] then none
  else some (pyDedent (joinSep "
" node_lines))

/-- Python `_get_node_source(node, source, include_body=False)` on a class/function:
the slice ends just before the first body statement's line. -/
def get_node_source_header (lineno end_lineno : Nat) (body : List Stmt)
    (source : String) : Option String :=
  let endL :=
    match body with
    | child :: _ => child.lineno - 1
    | [] => end_lineno
  let lines := pySplitlines source
  let node_lines := (lines.drop (lineno - 1)).take (endL - (lineno - 1))
  if node_lines = [] then none
  else some (pyDedent (joinSep "
" node_lines))

/-- Python `_get_function_signature`. -/
def get_function_signature (name : String) (args : List String)
    (hasReturns : Bool) : String :=
  "def " ++ name ++ "(" ++ joinSep ", " args ++ ")" ++
    (if hasReturns then " -> ..." else "") ++ ": ..."

/-- Python `_get_import_statement`. -/
def get_import_statement : Stmt → Option String
  | .importStmt _ _ names => some ("import " ++ joinSep ", " names)
  | .importFrom _ _ module names =>
    some ("from " ++ module.getD "" ++ " import " ++ joinSep ", " names)
  | _ => none

/-- Python `_is_nested_function(tree, func_node)`: some class or (sync) function
definition in the tree, other than the node itself, contains it. -/
def is_nested_function (tree : Module) (func : Stmt) : Bool :=
  (walkStmts tree.body).any (fun node =>
    (node.isClassDef || node.isFunctionDef) && node != func &&
      (walkStmts [node]).any (fun child => child == func))

/-- Stable insertion of a statement behind all earlier statements with a
`lineno` not exceeding its own. -/
def insertByLine (a : Stmt) : List Stmt → List Stmt
  | [] => [a]
  | b :: rest =>
    if a.lineno < b.lineno then a :: b :: rest
    else b :: insertByLine a rest

/-- Python `import_nodes.sort(key=lambda x: x.lineno)`: a stable sort by line
number (Python's sort is stable; stable insertion sort agrees with it). -/
def sortByLine (l : List Stmt) : List Stmt :=
  l.foldl (fun acc a => insertByLine a acc) []

/-- The grouping loop of `_extract_imports`: starting from
`last_line = -2`, a node joins the current group iff its line number exceeds
the previous node's by at most 1; otherwise the current group is closed. -/
def group_consecutive : List Stmt → Int → List (List Stmt) → List Stmt →
    List (List Stmt)
  | [], _, groups, current =>
    if current = [] then groups else groups ++ [current]
  | node :: rest, last_line, groups, current =>
    if (node.lineno : Int) - last_line ≤ 1 then
      group_consecutive rest (node.lineno : Int) groups (current ++ [node])
    else
      group_consecutive rest (node.lineno : Int)
        (if current = [] then groups else groups ++ [current]) [node]

/-- All import statements anywhere in the tree (`ast.walk`). -/
def import_nodes_of (tree : Module) : List Stmt :=
  (walkStmts tree.body).filter Stmt.isImportNode

/-- The import statements sorted by line number. -/
def sortedImports (tree : Module) : List Stmt :=
  sortByLine (import_nodes_of tree)

/-- The contiguous import groups. -/
def importGroups (tree : Module) : List (List Stmt) :=
  group_consecutive (sortedImports tree) (-2) [] []

/-- A placeholder statement (unreachable default for `group[0]`/`group[-1]`
of the provably nonempty groups). -/
def defaultStmt : Stmt := Stmt.other 0 0 []

/-- Python `_extract_imports(tree, source)`.  Note the source slip: the chunks'
`file_path` field receives `source` (the method is called as
`self._extract_imports(tree, source_code)` and passes `file_path=source`). -/
def extract_imports (tree : Module) (source : String) : List CodeChunk :=
  if import_nodes_of tree = [] then []
  else
    (importGroups tree).filterMap (fun group =>
      let lines := group.filterMap get_import_statement
      if lines = [] then none
      else
        some (create_chunk (joinSep "
" lines) "import"
          (group.headD defaultStmt).lineno
          (group.getLastD defaultStmt).lineno
          source none [("num_imports", MetaVal.nat lines.length)]))

/-- Python `_extract_globals(tree, source)`: top-level `Assign` statements
contribute their (dedented, truthy) source once per plain-`Name` target, and
`AnnAssign` with a plain-`Name` target contributes it once.  The chunk spans
line 1 to the file's last line, and — the same source slip as with imports —
its `file_path` field receives `source`. -/
def global_statements_of (tree : Module) (source : String) : List String :=
  tree.body.flatMap (fun node =>
    match node with
    | .assign l e targets =>
      targets.filterMap (fun t =>
        match t with
        | .name _ =>
          match get_node_source l e source with
          | some line => if line = "" then none else some line
          | none => none
        | .other => none)
    | .annAssign l e t =>
      match t with
      | .name _ =>
        (match get_node_source l e source with
          | some line => if line = "" then none else some line
          | none => none).toList
      | .other => []
    | _ => [])

/-- The chunk-building tail of `_extract_globals`. -/
def extract_globals (tree : Module) (source : String) : Option CodeChunk :=
  let global_statements := global_statements_of tree source
  if global_statements = [] then none
  else
    some (create_chunk (joinSep "
" global_statements) "global" 1
      (pySplitlines source).length source none
      [("num_globals", MetaVal.nat global_statements.length)])

/-- The method chunk one direct class-body item contributes (the body of the
method loop of `_extract_class`): `None` unless the item is a sync
`FunctionDef` with a truthy source slice. -/
def method_chunk_of (class_name source file_path : String)
    (include_context : Bool) : Stmt → Option CodeChunk
  | .functionDef mlineno mend mname _ _ mbody =>
    match get_node_source mlineno mend source with
    | none => none
    | some method_source =>
      if method_source = "" then none
      else
        let method_content :=
          if include_context then
            "# In class: " ++ class_name ++ "\n" ++ method_source
          else method_source
        some (create_chunk method_content "method" mlineno
          (orLineno mend mlineno) file_path (some class_name)
          [("class_name", MetaVal.str class_name),
           ("method_name", MetaVal.str mname),
           ("is_private", MetaVal.bool (strStarts mname "_")),
           ("is_dunder", MetaVal.bool
             (strStarts mname "__" && strEnds mname "__")),
           ("has_docstring", MetaVal.bool
             (match get_docstring mbody with
               | some ds => ds != "" | none => false))])
  | _ => none

/-- The signature row one direct class-body item contributes to the
`# Methods:` section of the class overview (the `method_signatures`
comprehension of `_extract_class`): `None` unless the item is a sync
`FunctionDef`, since `isinstance(item, ast.FunctionDef)` is `False` for
`ast.AsyncFunctionDef`. -/
def method_signature_of : Stmt → Option String
  | .functionDef _ _ n args ret _ =>
    some ("    " ++ get_function_signature n args ret)
  | _ => none

/-- Python `_extract_class`: the class-overview chunk followed by one chunk per
direct (sync) method whose source slice is truthy.  When the class header
slice is `None` (a class whose first body statement starts on the header
line), the Python code concatenates/slices `None` and raises `TypeError`. -/
def extract_class (lineno end_lineno : Nat) (class_name : String)
    (body : List Stmt) (source file_path : String) (include_context : Bool) :
    Except PyError (List CodeChunk) :=
  let class_docstring := get_docstring body
  match get_node_source_header lineno end_lineno body source with
  | none => .error .typeError
  | some class_header =>
    let overview1 :=
      match class_docstring with
      | some ds =>
        if ds = "" then class_header
        else class_header ++ "\n    \"\"\"" ++ ds ++ "\"\"\""
      | none => class_header
    let method_signatures := body.filterMap method_signature_of
    let class_overview :=
      if method_signatures = [] then overview1
      else overview1 ++ "\n\n    # Methods:\n" ++ joinSep "\n" method_signatures
    let classChunk := create_chunk class_overview "class" lineno
      (orLineno end_lineno lineno) file_path none
      [("class_name", MetaVal.str class_name),
       ("has_docstring", MetaVal.bool
         (match class_docstring with | some ds => ds != "" | none => false)),
       ("num_methods", MetaVal.nat (body.filter Stmt.isFunctionDef).length)]
    let methodChunks := body.filterMap
      (method_chunk_of class_name source file_path include_context)
    .ok (classChunk :: methodChunks)

/-- Python `_extract_function`: `None` (no chunk) when the source slice is missing
or falsy. -/
def extract_function (lineno end_lineno : Nat) (name : String)
    (args : List String) (body : List Stmt) (source file_path : String) :
    Option CodeChunk :=
  match get_node_source lineno end_lineno source with
  | none => none
  | some func_source =>
    if func_source = "" then none
    else
      some (create_chunk func_source "function" lineno
        (orLineno end_lineno lineno) file_path none
        [("function_name", MetaVal.str name),
         ("is_private", MetaVal.bool (strStarts name "_")),
         ("has_docstring", MetaVal.bool
           (match get_docstring body with
             | some ds => ds != "" | none => false)),
         ("num_args", MetaVal.nat args.length)])

/-- Splitting a character list on the path separator `'/'`, for the `pathlib`
component model. -/
def splitSlash : List Char → List (List Char)
  | [] => [[]]
  | c :: rest =>
    if c = '/' then [] :: splitSlash rest
    else
      match splitSlash rest with
      | [] => [[c]]
      | t :: ts => (c :: t) :: ts

/-- Python `Path(file_path).name`: the last meaningful slash-separated path
component (empty and `.` components are dropped, as `pathlib` normalizes
them away). -/
def pathName (p : String) : String :=
  (((splitSlash p.toList).map String.mk).filter
    (fun comp => comp != "" && comp != ".")).getLastD ""

/-- Python `Path(file_path).stem`: the name without its final suffix (a dot that is
neither first nor last). -/
def pathStem (p : String) : String :=
  let name := pathName p
  let cs := name.toList
  match (cs.reverse.findIdx? (fun c => c = '.')) with
  | none => name
  | some j =>
    let i := cs.length - 1 - j
    if 0 < i && i < cs.length - 1 then String.mk (cs.take i) else name

/-- The module-docstring chunk (emitted when `ast.get_docstring(tree)` is
truthy): synthesized content, lines 1 through docstring line count + 2. -/
def module_docstring_chunks (tree : Module) (file_path : String) :
    List CodeChunk :=
  match get_docstring tree.body with
  | none => []
  | some ds =>
    if ds = "" then []
    else
      [create_chunk ("\"\"\"Module Documentation\"\"\"\n" ++ ds)
        "module_docstring" 1 (count_lines ds + 2) file_path none
        [("module", MetaVal.str (pathStem file_path))]]

/-- The per-node step of the class/function extraction loop, sequenced over
`ast.walk(tree)`; a `TypeError` aborts the whole call. -/
def defs_chunks (nodes : List Stmt) (tree : Module)
    (source file_path : String) (include_context : Bool) :
    Except PyError (List CodeChunk) :=
  match nodes with
  | [] => .ok []
  | node :: rest =>
    match node with
    | .classDef l e n b =>
      match extract_class l e n b source file_path include_context with
      | .error err => .error err
      | .ok cs =>
        match defs_chunks rest tree source file_path include_context with
        | .error err => .error err
        | .ok more => .ok (cs ++ more)
    | .functionDef l e n args ret b =>
      if is_nested_function tree (.functionDef l e n args ret b) then
        defs_chunks rest tree source file_path include_context
      else
        match extract_function l e n args b source file_path with
        | some c =>
          match defs_chunks rest tree source file_path include_context with
          | .error err => .error err
          | .ok more => .ok (c :: more)
        | none => defs_chunks rest tree source file_path include_context
    | _ => defs_chunks rest tree source file_path include_context

/-- Python `_fallback_chunk`: fixed windows of 50 lines, tagged `code_block` with
`fallback: true`. -/
def fallback_chunk (source file_path : String) : List CodeChunk :=
  let lines := pySplitlines source
  (List.range ((lines.length + 49) / 50)).map (fun k =>
    let i := k * 50
    create_chunk (joinSep "\n" ((lines.drop i).take 50)) "code_block"
      (i + 1) (min (i + 50) lines.length) file_path none
      [("fallback", MetaVal.bool true)])

/-- Python `chunk_code(source_code, file_path)`: fallback chunking on a
`SyntaxError`; otherwise module docstring, imports, globals, then the
class/function walk (whose `TypeError` propagates to the caller). -/
def chunk_code (parsed : ParseResult) (source_code file_path : String)
    (include_context : Bool) : Except PyError (List CodeChunk) :=
  match parsed with
  | .syntaxError => .ok (fallback_chunk source_code file_path)
  | .ok tree =>
    match defs_chunks (walkStmts tree.body) tree source_code file_path
        include_context with
    | .error e => .error e
    | .ok defChunks =>
      .ok (module_docstring_chunks tree file_path ++
        extract_imports tree source_code ++
        (extract_globals tree source_code).toList ++ defChunks)

/-- Python `chunk_file(file_path)`: the filesystem is modelled as a partial map
from paths to file contents, and `ast.parse` as a function from source text
to a parse outcome.  A missing path raises `FileNotFoundError` before any
parsing; otherwise the file's text is chunked. -/
def chunk_file (fs : String → Option String) (parse : String → ParseResult)
    (file_path : String) (include_context : Bool) :
    Except PyError (List CodeChunk) :=
  match fs file_path with
  | none => .error (.fileNotFound file_path)
  | some source_code =>
    chunk_code (parse source_code) source_code file_path include_context

/-! ## Spec-side definition and derived per-node view -/

/-- Modelled from the spec: "the whitespace-dedented slice of the original
source between `start_line` and `end_line` (inclusive, 1-based)". -/
def dedentedSlice (source : String) (a b : Nat) : String :=
  pyDedent (joinSep "\n" (((pySplitlines source).drop (a - 1)).take (b - (a - 1))))

/-- The chunks one walked node contributes on the non-error path of the
class/function loop of `chunk_code`. -/
def node_chunks (tree : Module) (source file_path : String)
    (include_context : Bool) : Stmt → List CodeChunk
  | .classDef l e n b =>
    (extract_class l e n b source file_path include_context).toOption.getD []
  | .functionDef l e n args ret b =>
    if is_nested_function tree (.functionDef l e n args ret b) then []
    else (extract_function l e n args b source file_path).toList
  | _ => []

/-! ## Concrete inputs (source texts with the trees `ast.parse` gives them) -/

/-- Python `"\"\"\"d\"\"\""` — a module holding only a docstring. -/
def exTreeDoc : Module := ⟨[.exprConstStr 1 1 "d"]⟩

/-- Source of `exTreeDoc`. -/
def exSrcDoc : String := "\"\"\"d\"\"\""

/-- Docstring, then an import on line 2, then a global on line 3. -/
def exTreeOrd : Module :=
  ⟨[.exprConstStr 1 1 "doc", .importStmt 2 2 ["os"], .assign 3 3 [.name "X"]]⟩

/-- Source of `exTreeOrd`. -/
def exSrcOrd : String := "\"\"\"doc\"\"\"\nimport os\nX = 1"

/-- An import and a global assignment. -/
def exTreeFp : Module := ⟨[.importStmt 1 1 ["os"], .assign 2 2 [.name "X"]]⟩

/-- Source of `exTreeFp`. -/
def exSrcFp : String := "import os\nX = 1"

/-- Python `class A: pass` — the class body starts on the header line. -/
def exTreeCrash : Module := ⟨[.classDef 1 1 "A" [.other 1 1 []]]⟩

/-- Source of `exTreeCrash`. -/
def exSrcCrash : String := "class A: pass"

/-- Python `async def f` containing a plain `def g`. -/
def exTreeAsync : Module :=
  ⟨[.asyncFunctionDef 1 3 "f" [] false
      [.functionDef 2 3 "g" [] false [.other 3 3 []]]]⟩

/-- Source of `exTreeAsync`. -/
def exSrcAsync : String := "async def f():\n    def g():\n        pass"

/-- A class with one method. -/
def exTreeClass : Module :=
  ⟨[.classDef 1 3 "C" [.functionDef 2 3 "m" ["self"] false [.other 3 3 []]]]⟩

/-- Source of `exTreeClass`. -/
def exSrcClass : String := "class C:\n    def m(self):\n        pass"

/-- A single top-level function. -/
def exTreeFun : Module := ⟨[.functionDef 1 2 "f" [] false [.other 2 2 []]]⟩

/-- Source of `exTreeFun`. -/
def exSrcFun : String := "def f():\n    pass"

/-- A 60-line source (for the fallback path). -/
def exSrcFallback : String := joinSep "\n" (List.replicate 60 "x")

/-- A class whose only method is an `async def`. -/
def exTreeAsyncM : Module :=
  ⟨[.classDef 1 3 "D" [.asyncFunctionDef 2 3 "am" ["self"] false
      [.other 3 3 []]]]⟩

/-- Source of `exTreeAsyncM`. -/
def exSrcAsyncM : String := "class D:\n    async def am(self):\n        pass"

/-- Imports on lines 1 and 2, a blank line, then an import on line 4. -/
def exTreeImp : Module :=
  ⟨[.importStmt 1 1 ["os"], .importStmt 2 2 ["sys"],
    .importFrom 4 4 (some "typing") ["List"]]⟩

/-- Source of `exTreeImp`. -/
def exSrcImp : String := "import os\nimport sys\n\nfrom typing import List"

/-! ## Lemmas: sizes and the BFS walk -/

theorem stmtSize_pos (s : Stmt) : 1 ≤ stmtSize s := by
  cases s <;> simp [stmtSize]

theorem stmtSize_eq_children (s : Stmt) :
    stmtSize s = 1 + stmtsSize s.children := by
  cases s <;> simp [stmtSize, Stmt.children, stmtsSize]

theorem stmtsSize_cons (s : Stmt) (q : List Stmt) :
    stmtsSize (s :: q) = stmtSize s + stmtsSize q := rfl

theorem stmtsSize_append (a b : List Stmt) :
    stmtsSize (a ++ b) = stmtsSize a + stmtsSize b := by
  induction a with
  | nil => simp [stmtsSize]
  | cons s rest ih => simp [stmtsSize, ih]; omega

theorem stmtsSize_eq_zero {l : List Stmt} (h : stmtsSize l = 0) : l = [] := by
  cases l with
  | nil => rfl
  | cons s rest =>
    have := stmtSize_pos s
    rw [stmtsSize_cons] at h
    omega

theorem walkAux_congr :
    ∀ (f₁ f₂ : Nat) (l : List Stmt), stmtsSize l ≤ f₁ → stmtsSize l ≤ f₂ →
      walkAux f₁ l = walkAux f₂ l := by
  intro f₁
  induction f₁ with
  | zero =>
    intro f₂ l h1 _
    have : l = [] := stmtsSize_eq_zero (Nat.le_zero.mp h1)
    subst this
    cases f₂ <;> rfl
  | succ f ih =>
    intro f₂ l h1 h2
    cases l with
    | nil => cases f₂ <;> rfl
    | cons s q =>
      have hs := stmtSize_pos s
      rw [stmtsSize_cons] at h1 h2
      cases f₂ with
      | zero => omega
      | succ f₂ =>
        simp only [walkAux, List.cons.injEq, true_and]
        apply ih
        · rw [stmtsSize_append]
          have := stmtSize_eq_children s
          omega
        · rw [stmtsSize_append]
          have := stmtSize_eq_children s
          omega

theorem walkStmts_nil : walkStmts [] = [] := rfl

theorem walkStmts_cons (s : Stmt) (q : List Stmt) :
    walkStmts (s :: q) = s :: walkStmts (q ++ s.children) := by
  have hs := stmtSize_pos s
  have hc := stmtSize_eq_children s
  have hq : stmtsSize (s :: q) = (stmtsSize (s :: q) - 1) + 1 := by
    rw [stmtsSize_cons]; omega
  unfold walkStmts
  rw [hq]
  simp only [walkAux, List.cons.injEq, true_and]
  apply walkAux_congr
  · rw [stmtsSize_append, stmtsSize_cons]; omega
  · exact le_rfl

theorem exists_walk_suffix :
    ∀ (n : Nat) (l : List Stmt), stmtsSize l ≤ n →
      ∃ r, walkStmts l = l ++ r := by
  intro n
  induction n with
  | zero =>
    intro l h
    have : l = [] := stmtsSize_eq_zero (Nat.le_zero.mp h)
    subst this
    exact ⟨[], rfl⟩
  | succ n ih =>
    intro l h
    cases l with
    | nil => exact ⟨[], rfl⟩
    | cons s q =>
      rw [walkStmts_cons]
      have hc := stmtSize_eq_children s
      rw [stmtsSize_cons] at h
      obtain ⟨r, hr⟩ := ih (q ++ s.children)
        (by rw [stmtsSize_append]; omega)
      rw [hr]
      exact ⟨s.children ++ r, by simp⟩

theorem mem_walkStmts_of_mem {l : List Stmt} {x : Stmt} (h : x ∈ l) :
    x ∈ walkStmts l := by
  obtain ⟨r, hr⟩ := exists_walk_suffix (stmtsSize l) l le_rfl
  rw [hr]
  exact List.mem_append_left _ h

/-! ## Lemmas: the stable sort by line number -/

theorem insertByLine_perm (a : Stmt) (l : List Stmt) :
    List.Perm (insertByLine a l) (a :: l) := by
  induction l with
  | nil => exact List.Perm.refl _
  | cons b rest ih =>
    simp only [insertByLine]
    split
    · exact List.Perm.refl _
    · exact (ih.cons b).trans (List.Perm.swap a b rest)

theorem sortByLine_aux_perm :
    ∀ (l acc : List Stmt),
      List.Perm (l.foldl (fun acc a => insertByLine a acc) acc) (acc ++ l) := by
  intro l
  induction l with
  | nil => intro acc; simp
  | cons a rest ih =>
    intro acc
    have h1 := ih (insertByLine a acc)
    have h2 : List.Perm (insertByLine a acc ++ rest) ((a :: acc) ++ rest) :=
      (insertByLine_perm a acc).append_right _
    have h3 : List.Perm ((a :: acc) ++ rest) (acc ++ a :: rest) := by
      simpa using (@List.perm_middle _ a acc rest).symm
    exact (h1.trans h2).trans h3

theorem sortByLine_perm (l : List Stmt) : List.Perm (sortByLine l) l := by
  simpa [sortByLine] using sortByLine_aux_perm l []

theorem mem_insertByLine {a x : Stmt} {l : List Stmt} :
    x ∈ insertByLine a l ↔ x = a ∨ x ∈ l := by
  rw [(insertByLine_perm a l).mem_iff]
  simp

theorem insertByLine_pairwise {a : Stmt} {l : List Stmt}
    (h : l.Pairwise (fun x y => x.lineno ≤ y.lineno)) :
    (insertByLine a l).Pairwise (fun x y => x.lineno ≤ y.lineno) := by
  induction l with
  | nil => simp [insertByLine]
  | cons b rest ih =>
    rw [List.pairwise_cons] at h
    obtain ⟨hb, hrest⟩ := h
    simp only [insertByLine]
    split
    · rename_i hab
      refine List.Pairwise.cons ?_ (List.Pairwise.cons hb hrest)
      intro y hy
      rcases List.mem_cons.mp hy with rfl | hy
      · omega
      · have := hb y hy
        omega
    · rename_i hab
      refine List.Pairwise.cons ?_ (ih hrest)
      intro y hy
      rcases mem_insertByLine.mp hy with rfl | hy
      · omega
      · exact hb y hy

theorem sortByLine_aux_pairwise :
    ∀ (l acc : List Stmt),
      acc.Pairwise (fun x y => x.lineno ≤ y.lineno) →
      (l.foldl (fun acc a => insertByLine a acc) acc).Pairwise
        (fun x y => x.lineno ≤ y.lineno) := by
  intro l
  induction l with
  | nil => intro acc h; exact h
  | cons a rest ih =>
    intro acc h
    exact ih _ (insertByLine_pairwise h)

theorem sortByLine_pairwise (l : List Stmt) :
    (sortByLine l).Pairwise (fun x y => x.lineno ≤ y.lineno) :=
  sortByLine_aux_pairwise l [] List.Pairwise.nil

/-! ## Lemmas: the import grouping loop -/

theorem filterMap_congr_some {α β : Type} {f : α → Option β} {g : α → β} :
    ∀ {l : List α}, (∀ x ∈ l, f x = some (g x)) → l.filterMap f = l.map g := by
  intro l
  induction l with
  | nil => intro _; rfl
  | cons a rest ih =>
    intro h
    rw [List.filterMap_cons, h a (List.mem_cons_self a rest), List.map_cons,
      ih (fun x hx => h x (List.mem_cons_of_mem a hx))]

theorem group_consecutive_join :
    ∀ (rest : List Stmt) (ll : Int) (groups : List (List Stmt))
      (current : List Stmt),
      (group_consecutive rest ll groups current).flatten =
        groups.flatten ++ current ++ rest := by
  intro rest
  induction rest with
  | nil =>
    intro ll groups current
    simp only [group_consecutive]
    split
    · rename_i h
      simp [h]
    · simp
  | cons n rest ih =>
    intro ll groups current
    simp only [group_consecutive]
    split
    · rw [ih]
      simp
    · split
      · rename_i hcur
        subst hcur
        rw [ih]
        simp
      · rw [ih]
        simp

theorem group_consecutive_nonempty :
    ∀ (rest : List Stmt) (ll : Int) (groups : List (List Stmt))
      (current : List Stmt),
      (∀ g ∈ groups, g ≠ []) →
      ∀ g ∈ group_consecutive rest ll groups current, g ≠ [] := by
  intro rest
  induction rest with
  | nil =>
    intro ll groups current hg g hmem
    simp only [group_consecutive] at hmem
    split at hmem
    · exact hg g hmem
    · rename_i hcur
      rcases List.mem_append.mp hmem with h | h
      · exact hg g h
      · rw [List.mem_singleton.mp h]
        exact hcur
  | cons n rest ih =>
    intro ll groups current hg g hmem
    simp only [group_consecutive] at hmem
    split at hmem
    · exact ih _ _ _ hg g hmem
    · refine ih _ _ _ ?_ g hmem
      intro g' hg'
      split at hg'
      · exact hg g' hg'
      · rename_i hcur
        rcases List.mem_append.mp hg' with h | h
        · exact hg g' h
        · rw [List.mem_singleton.mp h]
          exact hcur

theorem group_consecutive_chain :
    ∀ (rest : List Stmt) (ll : Int) (groups : List (List Stmt))
      (current : List Stmt),
      (∀ g ∈ groups,
        g.Chain' (fun x y => Stmt.lineno y ≤ Stmt.lineno x + 1)) →
      current.Chain' (fun x y => Stmt.lineno y ≤ Stmt.lineno x + 1) →
      (∀ a, current.getLast? = some a → (Stmt.lineno a : Int) = ll) →
      ∀ g ∈ group_consecutive rest ll groups current,
        g.Chain' (fun x y => Stmt.lineno y ≤ Stmt.lineno x + 1) := by
  intro rest
  induction rest with
  | nil =>
    intro ll groups current hg hcur _ g hmem
    simp only [group_consecutive] at hmem
    split at hmem
    · exact hg g hmem
    · rcases List.mem_append.mp hmem with h | h
      · exact hg g h
      · rw [List.mem_singleton.mp h]
        exact hcur
  | cons n rest ih =>
    intro ll groups current hg hcur hlast g hmem
    simp only [group_consecutive] at hmem
    split at hmem
    · rename_i hcond
      refine ih _ _ _ hg ?_ ?_ g hmem
      · rw [List.chain'_append]
        refine ⟨hcur, List.chain'_singleton n, ?_⟩
        intro x hx y hy
        simp only [List.head?_cons, Option.mem_def, Option.some.injEq] at hy
        subst hy
        have hx' : current.getLast? = some x := hx
        have := hlast x hx'
        omega
      · intro a ha
        rw [List.getLast?_concat] at ha
        rw [Option.some.injEq] at ha
        subst ha
        rfl
    · rename_i hcond
      refine ih _ _ _ ?_ (List.chain'_singleton n) ?_ g hmem
      · intro g' hg'
        split at hg'
        · exact hg g' hg'
        · rcases List.mem_append.mp hg' with h | h
          · exact hg g' h
          · rw [List.mem_singleton.mp h]
            exact hcur
      · intro a ha
        simp only [List.getLast?_singleton, Option.some.injEq] at ha
        subst ha
        rfl

theorem group_consecutive_gap :
    ∀ (rest : List Stmt) (ll : Int) (groups : List (List Stmt))
      (current : List Stmt),
      (current = [] → groups = []) →
      groups.Chain' (fun g1 g2 => ∀ a b, g1.getLast? = some a →
        g2.head? = some b → Stmt.lineno a + 2 ≤ Stmt.lineno b) →
      (∀ a, current.getLast? = some a → (Stmt.lineno a : Int) = ll) →
      (∀ g a c, groups.getLast? = some g → g.getLast? = some a →
        current.head? = some c → Stmt.lineno a + 2 ≤ Stmt.lineno c) →
      (group_consecutive rest ll groups current).Chain'
        (fun g1 g2 => ∀ a b, g1.getLast? = some a →
          g2.head? = some b → Stmt.lineno a + 2 ≤ Stmt.lineno b) := by
  intro rest
  induction rest with
  | nil =>
    intro ll groups current _ hchain _ hlink
    simp only [group_consecutive]
    split
    · exact hchain
    · rw [List.chain'_append]
      refine ⟨hchain, List.chain'_singleton current, ?_⟩
      intro g hg y hy
      simp only [List.head?_cons, Option.mem_def, Option.some.injEq] at hy
      subst hy
      intro a b ha hb
      exact hlink g a b hg ha hb
  | cons n rest ih =>
    intro ll groups current hce hchain hlast hlink
    simp only [group_consecutive]
    split
    · rename_i hcond
      refine ih _ _ _ (by simp) hchain ?_ ?_
      · intro a ha
        rw [List.getLast?_concat, Option.some.injEq] at ha
        subst ha
        rfl
      · intro g a c hg ha hc
        by_cases hcur : current = []
        · rw [hce hcur] at hg
          simp at hg
        · rw [List.head?_append_of_ne_nil _ hcur] at hc
          exact hlink g a c hg ha hc
    · rename_i hcond
      refine ih _ _ _ (by simp) ?_ ?_ ?_
      · split
        · exact hchain
        · rename_i hcur
          rw [List.chain'_append]
          refine ⟨hchain, List.chain'_singleton current, ?_⟩
          intro g hg y hy
          simp only [List.head?_cons, Option.mem_def, Option.some.injEq] at hy
          subst hy
          intro a b ha hb
          exact hlink g a b hg ha hb
      · intro a ha
        simp only [List.getLast?_singleton, Option.some.injEq] at ha
        subst ha
        rfl
      · intro g a c hg ha hc
        simp only [List.head?_cons, Option.some.injEq] at hc
        subst hc
        split at hg
        · rename_i hcur
          rw [hce hcur] at hg
          simp at hg
        · rw [List.getLast?_concat, Option.some.injEq] at hg
          subst hg
          have := hlast a ha
          omega

/-! ## Lemmas: import extraction -/

theorem importGroups_join (tree : Module) :
    (importGroups tree).flatten = sortedImports tree := by
  unfold importGroups
  rw [group_consecutive_join]
  simp

theorem importGroups_nonempty (tree : Module) :
    ∀ g ∈ importGroups tree, g ≠ [] :=
  group_consecutive_nonempty _ _ _ _ (by simp)

theorem importGroups_chain (tree : Module) :
    ∀ g ∈ importGroups tree,
      g.Chain' (fun x y => Stmt.lineno y ≤ Stmt.lineno x + 1) :=
  group_consecutive_chain _ _ _ _ (by simp) List.chain'_nil (by simp)

theorem importGroups_gap (tree : Module) :
    (importGroups tree).Chain' (fun g1 g2 => ∀ a b, g1.getLast? = some a →
      g2.head? = some b → Stmt.lineno a + 2 ≤ Stmt.lineno b) :=
  group_consecutive_gap _ _ _ _ (fun _ => rfl) List.chain'_nil (by simp) (by simp)

theorem sortedImports_pairwise (tree : Module) :
    (sortedImports tree).Pairwise (fun x y => Stmt.lineno x ≤ Stmt.lineno y) :=
  sortByLine_pairwise _

theorem mem_importGroups_isImport {tree : Module} {g : List Stmt} {x : Stmt}
    (hg : g ∈ importGroups tree) (hx : x ∈ g) : x.isImportNode = true := by
  have hj : x ∈ (importGroups tree).flatten := List.mem_flatten.mpr ⟨g, hg, hx⟩
  rw [importGroups_join] at hj
  have hx' : x ∈ import_nodes_of tree := (sortByLine_perm _).mem_iff.mp hj
  exact (List.mem_filter.mp hx').2

theorem importLines_length {g : List Stmt}
    (h : ∀ x ∈ g, x.isImportNode = true) :
    (g.filterMap get_import_statement).length = g.length := by
  induction g with
  | nil => rfl
  | cons a rest ih =>
    have ha := h a (List.mem_cons_self a rest)
    have hrest := ih (fun x hx => h x (List.mem_cons_of_mem a hx))
    cases a <;> simp [Stmt.isImportNode] at ha <;>
      simp [List.filterMap_cons, get_import_statement, hrest]

theorem extract_imports_eq_map (tree : Module) (src : String) :
    extract_imports tree src = (importGroups tree).map (fun g =>
      create_chunk (joinSep "\n" (g.filterMap get_import_statement)) "import"
        (g.headD defaultStmt).lineno (g.getLastD defaultStmt).lineno src none
        [("num_imports", MetaVal.nat (g.filterMap get_import_statement).length)]) := by
  unfold extract_imports
  split
  · rename_i h
    have hg : importGroups tree = [] := by
      unfold importGroups sortedImports
      rw [h]
      rfl
    rw [hg]
    rfl
  · apply filterMap_congr_some
    intro g hg
    have hne := importGroups_nonempty tree g hg
    have hlen := importLines_length (fun x hx => mem_importGroups_isImport hg hx)
    have : g.filterMap get_import_statement ≠ [] := by
      intro hnil
      rw [hnil] at hlen
      exact hne (List.length_eq_zero.mp hlen.symm)
    rw [if_neg this]

/-! ## Lemmas: the chunk parts and the decomposition of `chunk_code` -/

theorem mem_module_docstring_chunks {tree : Module} {fp : String}
    {c : CodeChunk} (h : c ∈ module_docstring_chunks tree fp) :
    c.chunk_type = "module_docstring" ∧ c.parent_context = none ∧
    c.start_line = 1 ∧ c.file_path = fp ∧
    c.id = chunk_id c.file_path c.start_line c.content := by
  unfold module_docstring_chunks at h
  split at h
  · simp at h
  · split at h
    · simp at h
    · rw [List.mem_singleton] at h
      subst h
      exact ⟨rfl, rfl, rfl, rfl, rfl⟩

theorem mem_extract_imports {tree : Module} {src : String} {c : CodeChunk}
    (h : c ∈ extract_imports tree src) :
    c.chunk_type = "import" ∧ c.parent_context = none ∧ c.file_path = src ∧
    c.id = chunk_id c.file_path c.start_line c.content := by
  rw [extract_imports_eq_map] at h
  obtain ⟨g, _, hc⟩ := List.mem_map.mp h
  subst hc
  exact ⟨rfl, rfl, rfl, rfl⟩

theorem mem_extract_globals {tree : Module} {src : String} {c : CodeChunk}
    (h : c ∈ (extract_globals tree src).toList) :
    c.chunk_type = "global" ∧ c.parent_context = none ∧ c.start_line = 1 ∧
    c.file_path = src ∧ c.id = chunk_id c.file_path c.start_line c.content := by
  unfold extract_globals at h
  by_cases hgs : global_statements_of tree src = []
  · rw [if_pos hgs] at h
    simp at h
  · rw [if_neg hgs] at h
    simp only [Option.toList_some, List.mem_singleton] at h
    subst h
    exact ⟨rfl, rfl, rfl, rfl, rfl⟩

theorem extract_class_ok {lineno end_lineno : Nat} {cn : String}
    {b : List Stmt} {src fp : String} {ic : Bool} {r : List CodeChunk}
    (h : extract_class lineno end_lineno cn b src fp ic = Except.ok r) :
    ∃ hd, r = hd ::
        b.filterMap (method_chunk_of cn src fp ic) ∧
      hd.chunk_type = "class" ∧ hd.parent_context = none ∧
      hd.start_line = lineno ∧ hd.end_line = orLineno end_lineno lineno ∧
      hd.file_path = fp ∧
      hd.meta "class_name" = some (MetaVal.str cn) ∧
      hd.meta "num_methods" =
        some (MetaVal.nat (b.filter Stmt.isFunctionDef).length) ∧
      hd.id = chunk_id hd.file_path hd.start_line hd.content := by
  unfold extract_class at h
  split at h
  · exact absurd h (by simp)
  · rw [Except.ok.injEq] at h
    subst h
    refine ⟨_, rfl, rfl, rfl, rfl, rfl, rfl, ?_, ?_, rfl⟩
    · rfl
    · rfl

theorem method_chunk_of_some {cn src fp : String} {ic : Bool} {item : Stmt}
    {m : CodeChunk} (h : method_chunk_of cn src fp ic item = some m) :
    m.chunk_type = "method" ∧ m.parent_context = some cn ∧ m.file_path = fp ∧
    m.id = chunk_id m.file_path m.start_line m.content ∧
    ∃ ml me mn margs mret mbody,
      item = Stmt.functionDef ml me mn margs mret mbody ∧
      m.start_line = ml ∧ m.end_line = orLineno me ml ∧
      m.meta "method_name" = some (MetaVal.str mn) ∧
      ∃ msrc, get_node_source ml me src = some msrc ∧ msrc ≠ "" ∧
        m.content =
          (if ic then "# In class: " ++ cn ++ "\n" ++ msrc else msrc) := by
  cases item with
  | functionDef ml me mn margs mret mbody =>
    simp only [method_chunk_of] at h
    split at h
    · exact absurd h (by simp)
    · rename_i msrc hsrc
      split at h
      · exact absurd h (by simp)
      · rename_i hne
        rw [Option.some.injEq] at h
        subst h
        exact ⟨rfl, rfl, rfl, rfl, ml, me, mn, margs, mret, mbody, rfl, rfl,
          rfl, rfl, msrc, hsrc, hne, rfl⟩
  | importStmt l e n => simp [method_chunk_of] at h
  | importFrom l e mo n => simp [method_chunk_of] at h
  | assign l e t => simp [method_chunk_of] at h
  | annAssign l e t => simp [method_chunk_of] at h
  | classDef l e n bb => simp [method_chunk_of] at h
  | asyncFunctionDef l e n a rr bb => simp [method_chunk_of] at h
  | exprConstStr l e v => simp [method_chunk_of] at h
  | other l e bb => simp [method_chunk_of] at h

theorem extract_function_some {lineno end_lineno : Nat} {fn : String}
    {args : List String} {b : List Stmt} {src fp : String} {c : CodeChunk}
    (h : extract_function lineno end_lineno fn args b src fp = some c) :
    c.chunk_type = "function" ∧ c.parent_context = none ∧ c.file_path = fp ∧
    c.start_line = lineno ∧ c.end_line = orLineno end_lineno lineno ∧
    c.id = chunk_id c.file_path c.start_line c.content ∧
    ∃ fsrc, get_node_source lineno end_lineno src = some fsrc ∧ fsrc ≠ "" ∧
      c.content = fsrc := by
  unfold extract_function at h
  split at h
  · exact absurd h (by simp)
  · rename_i fsrc hsrc
    split at h
    · exact absurd h (by simp)
    · rename_i hne
      rw [Option.some.injEq] at h
      subst h
      exact ⟨rfl, rfl, rfl, rfl, rfl, rfl, fsrc, hsrc, hne, rfl⟩

theorem defs_chunks_ok_eq :
    ∀ {nodes : List Stmt} {tree : Module} {src fp : String} {ic : Bool}
      {res : List CodeChunk},
      defs_chunks nodes tree src fp ic = Except.ok res →
      res = nodes.flatMap (node_chunks tree src fp ic) := by
  intro nodes
  induction nodes with
  | nil =>
    intro tree src fp ic res h
    rw [defs_chunks, Except.ok.injEq] at h
    subst h
    rfl
  | cons node rest ih =>
    intro tree src fp ic res h
    cases node with
    | classDef l e n b =>
      simp only [defs_chunks] at h
      split at h
      · exact absurd h (by simp)
      · rename_i cs hec
        split at h
        · exact absurd h (by simp)
        · rename_i more hrec
          rw [Except.ok.injEq] at h
          subst h
          rw [List.flatMap_cons, ← ih hrec]
          simp [node_chunks, hec, Except.toOption]
    | functionDef l e n args ret b =>
      simp only [defs_chunks] at h
      split at h
      · rename_i hn
        rw [List.flatMap_cons, ← ih h]
        simp [node_chunks, hn]
      · rename_i hn
        split at h
        · rename_i c hef
          split at h
          · exact absurd h (by simp)
          · rename_i more hrec
            rw [Except.ok.injEq] at h
            subst h
            rw [List.flatMap_cons, ← ih hrec]
            simp [node_chunks, hn, hef]
        · rename_i hef
          rw [List.flatMap_cons, ← ih h]
          simp [node_chunks, hn, hef]
    | importStmt l e n =>
      simp only [defs_chunks] at h
      rw [List.flatMap_cons, ← ih h]
      simp [node_chunks]
    | importFrom l e mo n =>
      simp only [defs_chunks] at h
      rw [List.flatMap_cons, ← ih h]
      simp [node_chunks]
    | assign l e t =>
      simp only [defs_chunks] at h
      rw [List.flatMap_cons, ← ih h]
      simp [node_chunks]
    | annAssign l e t =>
      simp only [defs_chunks] at h
      rw [List.flatMap_cons, ← ih h]
      simp [node_chunks]
    | asyncFunctionDef l e n a rr bb =>
      simp only [defs_chunks] at h
      rw [List.flatMap_cons, ← ih h]
      simp [node_chunks]
    | exprConstStr l e v =>
      simp only [defs_chunks] at h
      rw [List.flatMap_cons, ← ih h]
      simp [node_chunks]
    | other l e bb =>
      simp only [defs_chunks] at h
      rw [List.flatMap_cons, ← ih h]
      simp [node_chunks]

theorem defs_chunks_ok_classes :
    ∀ {nodes : List Stmt} {tree : Module} {src fp : String} {ic : Bool}
      {res : List CodeChunk},
      defs_chunks nodes tree src fp ic = Except.ok res →
      ∀ {l e : Nat} {n : String} {b : List Stmt},
        (Stmt.classDef l e n b) ∈ nodes →
        ∃ r, extract_class l e n b src fp ic = Except.ok r := by
  intro nodes
  induction nodes with
  | nil =>
    intro tree src fp ic res _ l e n b hmem
    simp at hmem
  | cons node rest ih =>
    intro tree src fp ic res h l e n b hmem
    rcases List.mem_cons.mp hmem with heq | hmem'
    · subst heq
      simp only [defs_chunks] at h
      split at h
      · exact absurd h (by simp)
      · rename_i cs hec
        exact ⟨cs, hec⟩
    · cases node with
      | classDef l2 e2 n2 b2 =>
        simp only [defs_chunks] at h
        split at h
        · exact absurd h (by simp)
        · rename_i cs hec
          split at h
          · exact absurd h (by simp)
          · rename_i more hrec
            exact ih hrec hmem'
      | functionDef l2 e2 n2 args2 ret2 b2 =>
        simp only [defs_chunks] at h
        split at h
        · exact ih h hmem'
        · split at h
          · rename_i c hef
            split at h
            · exact absurd h (by simp)
            · rename_i more hrec
              exact ih hrec hmem'
          · exact ih h hmem'
      | importStmt l2 e2 n2 =>
        simp only [defs_chunks] at h
        exact ih h hmem'
      | importFrom l2 e2 mo2 n2 =>
        simp only [defs_chunks] at h
        exact ih h hmem'
      | assign l2 e2 t2 =>
        simp only [defs_chunks] at h
        exact ih h hmem'
      | annAssign l2 e2 t2 =>
        simp only [defs_chunks] at h
        exact ih h hmem'
      | asyncFunctionDef l2 e2 n2 a2 r2 b2 =>
        simp only [defs_chunks] at h
        exact ih h hmem'
      | exprConstStr l2 e2 v2 =>
        simp only [defs_chunks] at h
        exact ih h hmem'
      | other l2 e2 b2 =>
        simp only [defs_chunks] at h
        exact ih h hmem'

theorem chunk_code_ok_eq {tree : Module} {src fp : String} {ic : Bool}
    {cs : List CodeChunk}
    (h : chunk_code (.ok tree) src fp ic = Except.ok cs) :
    cs = module_docstring_chunks tree fp ++ extract_imports tree src ++
      (extract_globals tree src).toList ++
      (walkStmts tree.body).flatMap (node_chunks tree src fp ic) := by
  simp only [chunk_code] at h
  split at h
  · exact absurd h (by simp)
  · rename_i defs hd
    rw [Except.ok.injEq] at h
    subst h
    rw [defs_chunks_ok_eq hd]

theorem chunk_code_ok_defs {tree : Module} {src fp : String} {ic : Bool}
    {cs : List CodeChunk}
    (h : chunk_code (.ok tree) src fp ic = Except.ok cs) :
    ∃ defs, defs_chunks (walkStmts tree.body) tree src fp ic =
      Except.ok defs := by
  simp only [chunk_code] at h
  split at h
  · exact absurd h (by simp)
  · rename_i defs hd
    exact ⟨defs, hd⟩

/-! ## Lemmas: counting -/

theorem countP_flatMap {α β : Type} (p : β → Bool) :
    ∀ (l : List α) (f : α → List β),
      ((l.flatMap f).countP p) = (l.map (fun a => (f a).countP p)).sum := by
  intro l
  induction l with
  | nil => intro f; rfl
  | cons a rest ih =>
    intro f
    rw [List.flatMap_cons, List.countP_append, List.map_cons, List.sum_cons,
      ih f]

theorem sum_map_ite_eq_count {α : Type} [DecidableEq α] (g : α) :
    ∀ (l : List α),
      (l.map (fun a => if a = g then 1 else 0)).sum = l.count g := by
  intro l
  induction l with
  | nil => rfl
  | cons a rest ih =>
    rw [List.map_cons, List.sum_cons, ih, List.count_cons]
    by_cases h : a = g
    · subst h
      simp
      omega
    · simp [h, Ne.symm h]

/-! ## Small derived facts about source slices -/

theorem countP_map_congr {α β : Type} (f : α → β) (p : β → Bool)
    (g : α → Bool) :
    ∀ (l : List α), (∀ a ∈ l, p (f a) = g a) →
      (l.map f).countP p = l.countP g := by
  intro l
  induction l with
  | nil => intro _; rfl
  | cons a rest ih =>
    intro h
    rw [List.map_cons, List.countP_cons, List.countP_cons,
      h a (List.mem_cons_self a rest),
      ih (fun x hx => h x (List.mem_cons_of_mem a hx))]

theorem get_node_source_some {l e : Nat} {src s : String}
    (h : get_node_source l e src = some s) :
    e ≠ 0 ∧ s = dedentedSlice src l e := by
  simp only [get_node_source] at h
  split at h
  · exact absurd h (by simp)
  · rename_i hne
    rw [Option.some.injEq] at h
    subst h
    constructor
    · intro he
      subst he
      simp at hne
    · rfl

/-! ## The claims -/

/-- Claim C3: the claim states that every chunk's `file_path` equals the file
path argument passed to `chunk_code`.  The code instead passes the source
text itself as the `file_path` of import and global chunks
(`_extract_imports`/`_extract_globals` receive no file path and pass
`file_path=source`): on `chunk_code("import os\nX = 1", "a.py")` both chunks
carry the source text, not `"a.py"`. -/
theorem claim_C3_theorem :
    (chunk_code (.ok exTreeFp) exSrcFp "a.py" true).map
      (fun cs => cs.map (fun c => (c.chunk_type, c.file_path))) =
      Except.ok [("import", exSrcFp), ("global", exSrcFp)] ∧
    exSrcFp ≠ "a.py" := by
  decide

/-- Claim C6: the claim states that apart from the not-found error, chunking
never raises.  The not-found half is right (a missing path yields the
not-found error, independent of parsing), but `chunk_code` itself raises a
`TypeError` on `"class A: pass"`: the class header slice is `None` (the body
starts on the header line) and `_extract_class` concatenates/slices it. -/
theorem claim_C6_theorem :
    chunk_code (.ok exTreeCrash) exSrcCrash "f.py" true =
      Except.error PyError.typeError ∧
    chunk_file (fun p => if p = "f.py" then some exSrcCrash else none)
      (fun _ => .ok exTreeCrash) "f.py" true =
      Except.error PyError.typeError ∧
    chunk_file (fun p => if p = "f.py" then some exSrcCrash else none)
      (fun _ => .ok exTreeCrash) "missing.py" true =
      Except.error (PyError.fileNotFound "missing.py") := by
  decide

/-- Claim C1, counterexample: the module-docstring chunk of `'"""d"""'` is a
non-fallback chunk whose content (`'"""Module Documentation"""\nd'`, a
synthesized header plus the cleaned docstring) differs from the dedented
slice of the source between its `start_line` 1 and `end_line` 3
(`'"""d"""'`). -/
theorem claim_C1_counterexample :
    (chunk_code (.ok exTreeDoc) exSrcDoc "a.py" true).map
      (fun cs => cs.map (fun c =>
        (c.chunk_type, c.content, c.start_line, c.end_line))) =
      Except.ok [("module_docstring", "\"\"\"Module Documentation\"\"\"\nd", 1, 3)] ∧
    dedentedSlice exSrcDoc 1 3 = exSrcDoc ∧
    "\"\"\"Module Documentation\"\"\"\nd" ≠ exSrcDoc := by
  decide

/-- Claim C2, counterexample: on a docstring plus an import on line 2 plus a
global assignment on line 3, the chunk list's `start_line`s are `[1, 2, 1]`
(the global chunk always spans from line 1), which is not ascending, and the
offending pair (the import chunk before the global chunk) is not a
class/method pair. -/
theorem claim_C2_counterexample :
    (chunk_code (.ok exTreeOrd) exSrcOrd "a.py" true).map
      (fun cs => cs.map (fun c => (c.chunk_type, c.start_line))) =
      Except.ok [("module_docstring", 1), ("import", 2), ("global", 1)] ∧
    ¬ List.Pairwise (fun a b => a ≤ b) [1, 2, (1 : Nat)] := by
  decide

/-- Claim C9, counterexample: `g` is defined inside the function `f`, yet it
is emitted as a `function` chunk, because `f` is an `async def` and
`_is_nested_function` only treats (sync) `ast.FunctionDef` and `ast.ClassDef`
nodes as enclosing definitions. -/
theorem claim_C9_counterexample :
    (chunk_code (.ok exTreeAsync) exSrcAsync "a.py" true).map
      (fun cs => cs.map (fun c => (c.chunk_type, c.start_line, c.content))) =
      Except.ok [("function", 2, "def g():\n    pass")] := by
  decide

/-- Claim C5: on a parse failure `chunk_code` returns exactly
`ceil(line_count / 50)` fallback chunks, each of type `code_block` with
`fallback: true`, whose line ranges partition `1..line_count` with no gaps
and no overlaps (every line in range is covered by exactly one chunk). -/
theorem claim_C5_theorem :
    ∀ (src fp : String) (ic : Bool),
      chunk_code ParseResult.syntaxError src fp ic =
        Except.ok (fallback_chunk src fp) ∧
      (fallback_chunk src fp).length = ((pySplitlines src).length + 49) / 50 ∧
      (∀ c ∈ fallback_chunk src fp, c.chunk_type = "code_block" ∧
        c.meta "fallback" = some (MetaVal.bool true)) ∧
      (∀ k c, (fallback_chunk src fp)[k]? = some c →
        c.start_line = 50 * k + 1 ∧
        c.end_line = min (50 * k + 50) (pySplitlines src).length) ∧
      (∀ m, 1 ≤ m → m ≤ (pySplitlines src).length →
        (fallback_chunk src fp).countP
          (fun c => decide (c.start_line ≤ m ∧ m ≤ c.end_line)) = 1) := by
  intro src fp ic
  refine ⟨rfl, ?_, ?_, ?_, ?_⟩
  · unfold fallback_chunk
    rw [List.length_map, List.length_range]
  · intro c hc
    unfold fallback_chunk at hc
    obtain ⟨k, _, hk⟩ := List.mem_map.mp hc
    subst hk
    exact ⟨rfl, rfl⟩
  · intro k c hc
    unfold fallback_chunk at hc
    rw [List.getElem?_map] at hc
    by_cases hk : k < ((pySplitlines src).length + 49) / 50
    · rw [List.getElem?_range hk] at hc
      simp only [Option.map_some', Option.some.injEq] at hc
      subst hc
      constructor
      · show k * 50 + 1 = 50 * k + 1
        ring
      · show min (k * 50 + 50) (pySplitlines src).length =
          min (50 * k + 50) (pySplitlines src).length
        ring_nf
    · rw [List.getElem?_eq_none (by simpa using hk)] at hc
      exact absurd hc (by simp)
  · intro m hm1 hm2
    unfold fallback_chunk
    have hdm := Nat.div_add_mod (m - 1) 50
    have hmod : (m - 1) % 50 < 50 := Nat.mod_lt _ (by norm_num)
    rw [countP_map_congr _ _ (fun k => k == (m - 1) / 50) _ ?_]
    · exact List.count_eq_one_of_mem (List.nodup_range _)
        (by rw [List.mem_range]; omega)
    · intro k _
      show (decide (k * 50 + 1 ≤ m ∧
        m ≤ min (k * 50 + 50) (pySplitlines src).length)) =
        (k == (m - 1) / 50)
      by_cases hk : k = (m - 1) / 50
      · subst hk
        simp only [beq_self_eq_true, decide_eq_true_eq]
        omega
      · have hb : (k == (m - 1) / 50) = false := by
          simp [hk]
        rw [hb, decide_eq_false_iff_not]
        omega

/-- Claim C5, witness: the fallback facts instantiated on a concrete 60-line
source: two chunks, and line 55 is covered by exactly one of them. -/
theorem claim_C5_witness :
    (fallback_chunk exSrcFallback "z.py").length = 2 ∧
    (fallback_chunk exSrcFallback "z.py").countP
      (fun c => decide (c.start_line ≤ 55 ∧ 55 ≤ c.end_line)) = 1 := by
  have h := claim_C5_theorem exSrcFallback "z.py" true
  refine ⟨h.2.1.trans (by decide), ?_⟩
  exact h.2.2.2.2 55 (by decide) (by decide)

/-- Where a chunk of a successful structural run can come from. -/
theorem chunk_provenance {tree : Module} {src fp : String} {ic : Bool}
    {cs : List CodeChunk} (h : chunk_code (.ok tree) src fp ic = Except.ok cs)
    {c : CodeChunk} (hc : c ∈ cs) :
    c ∈ module_docstring_chunks tree fp ∨
    c ∈ extract_imports tree src ∨
    c ∈ (extract_globals tree src).toList ∨
    (∃ l e n b r, (Stmt.classDef l e n b) ∈ walkStmts tree.body ∧
      extract_class l e n b src fp ic = Except.ok r ∧ c ∈ r) ∨
    (∃ l e n args ret b,
      (Stmt.functionDef l e n args ret b) ∈ walkStmts tree.body ∧
      is_nested_function tree (Stmt.functionDef l e n args ret b) = false ∧
      extract_function l e n args b src fp = some c) := by
  obtain ⟨defs, hdefs⟩ := chunk_code_ok_defs h
  rw [chunk_code_ok_eq h] at hc
  rcases List.mem_append.mp hc with hABC | hD
  · rcases List.mem_append.mp hABC with hAB | hC
    · rcases List.mem_append.mp hAB with hA | hB
      · exact Or.inl hA
      · exact Or.inr (Or.inl hB)
    · exact Or.inr (Or.inr (Or.inl hC))
  · obtain ⟨node, hnode, hcn⟩ := List.mem_flatMap.mp hD
    cases node with
    | classDef l e n b =>
      obtain ⟨r, hr⟩ := defs_chunks_ok_classes hdefs hnode
      simp only [node_chunks, hr, Except.toOption, Option.getD] at hcn
      exact Or.inr (Or.inr (Or.inr (Or.inl ⟨l, e, n, b, r, hnode, hr, hcn⟩)))
    | functionDef l e n args ret b =>
      simp only [node_chunks] at hcn
      split at hcn
      · simp at hcn
      · rename_i hn
        rcases hef : extract_function l e n args b src fp with _ | fc <;>
          rw [hef] at hcn
        · simp at hcn
        · simp only [Option.toList_some, List.mem_singleton] at hcn
          subst hcn
          refine Or.inr (Or.inr (Or.inr (Or.inr
            ⟨l, e, n, args, ret, b, hnode, ?_, hef⟩)))
          rwa [Bool.not_eq_true] at hn
    | importStmt l e n => simp [node_chunks] at hcn
    | importFrom l e mo n => simp [node_chunks] at hcn
    | assign l e t => simp [node_chunks] at hcn
    | annAssign l e t => simp [node_chunks] at hcn
    | asyncFunctionDef l e n a rr bb => simp [node_chunks] at hcn
    | exprConstStr l e v => simp [node_chunks] at hcn
    | other l e bb => simp [node_chunks] at hcn

/-- Claim C1, amended: chunk content is the literal whitespace-dedented
source slice between `start_line` and `end_line` for `function` chunks, and
for `method` chunks up to the `# In class:` context line prepended when
`include_context` is set; docstring, import, global and class chunks carry
synthesized or re-rendered content. -/
theorem claim_C1_theorem :
    ∀ (tree : Module) (src fp : String) (ic : Bool) (cs : List CodeChunk),
      chunk_code (.ok tree) src fp ic = Except.ok cs →
      ∀ c ∈ cs,
        (c.chunk_type = "function" →
          c.content = dedentedSlice src c.start_line c.end_line) ∧
        (c.chunk_type = "method" →
          ∃ pc, c.parent_context = some pc ∧
            c.content = (if ic then "# In class: " ++ pc ++ "\n" else "") ++
              dedentedSlice src c.start_line c.end_line) := by
  intro tree src fp ic cs h c hc
  rcases chunk_provenance h hc with hA | hB | hC |
    ⟨l, e, n, b, r, _, hr, hcr⟩ | ⟨l, e, n, args, ret, b, _, _, hef⟩
  · have hx := mem_module_docstring_chunks hA
    exact ⟨fun hf => absurd (hx.1.symm.trans hf) (by decide),
      fun hm => absurd (hx.1.symm.trans hm) (by decide)⟩
  · have hx := mem_extract_imports hB
    exact ⟨fun hf => absurd (hx.1.symm.trans hf) (by decide),
      fun hm => absurd (hx.1.symm.trans hm) (by decide)⟩
  · have hx := mem_extract_globals hC
    exact ⟨fun hf => absurd (hx.1.symm.trans hf) (by decide),
      fun hm => absurd (hx.1.symm.trans hm) (by decide)⟩
  · obtain ⟨hd, hreq, hdty, _, _, _, _, _, _, _⟩ := extract_class_ok hr
    rw [hreq] at hcr
    rcases List.mem_cons.mp hcr with rfl | hmem
    · exact ⟨fun hf => absurd (hdty.symm.trans hf) (by decide),
        fun hm => absurd (hdty.symm.trans hm) (by decide)⟩
    · obtain ⟨item, _, hmc⟩ := List.mem_filterMap.mp hmem
      obtain ⟨hty, hpc, _, _, ml, me, mn, margs, mret, mbody, _, hsl, hel,
        _, msrc, hms, _, hcontent⟩ := method_chunk_of_some hmc
      refine ⟨fun hf => absurd (hty.symm.trans hf) (by decide), fun _ => ?_⟩
      obtain ⟨hene, hslice⟩ := get_node_source_some hms
      have hor : orLineno me ml = me := by
        unfold orLineno
        rw [if_neg hene]
      refine ⟨n, hpc, ?_⟩
      rw [hcontent, hsl, hel, hor, ← hslice]
      cases ic <;> simp [String.append_assoc]
  · obtain ⟨hty, _, _, hsl, hel, _, fsrc, hfs, _, hcont⟩ :=
      extract_function_some hef
    refine ⟨fun _ => ?_, fun hm => absurd (hty.symm.trans hm) (by decide)⟩
    obtain ⟨hene, hslice⟩ := get_node_source_some hfs
    have hor : orLineno e l = e := by
      unfold orLineno
      rw [if_neg hene]
    rw [hcont, hsl, hel, hor, ← hslice]

set_option maxRecDepth 100000 in
/-- Claim C1, witness: the amended statement applied to a concrete class
with one method. -/
theorem claim_C1_witness :
    chunk_code (.ok exTreeClass) exSrcClass "f.py" true = Except.ok
      ((chunk_code (.ok exTreeClass) exSrcClass "f.py" true).toOption.getD []) ∧
    (∀ c ∈ (chunk_code (.ok exTreeClass) exSrcClass "f.py" true).toOption.getD [],
      (c.chunk_type = "function" →
        c.content = dedentedSlice exSrcClass c.start_line c.end_line) ∧
      (c.chunk_type = "method" →
        ∃ pc, c.parent_context = some pc ∧
          c.content = (if true then "# In class: " ++ pc ++ "\n" else "") ++
            dedentedSlice exSrcClass c.start_line c.end_line)) := by
  refine ⟨by decide, ?_⟩
  exact claim_C1_theorem exTreeClass exSrcClass "f.py" true _ (by decide)

/-- Claim C2, amended: a successful structural run is the concatenation of
the module-docstring chunk, the import chunks (whose start lines ascend),
the globals chunk and the walked definition chunks, and within each
extracted class the overview chunk precedes all of that class's method
chunks.  The full list is not totally ordered by `start_line`: the globals
chunk always starts at line 1 (see the counterexample). -/
theorem claim_C2_theorem :
    ∀ (tree : Module) (src fp : String) (ic : Bool) (cs : List CodeChunk),
      chunk_code (.ok tree) src fp ic = Except.ok cs →
      (cs = module_docstring_chunks tree fp ++ extract_imports tree src ++
        (extract_globals tree src).toList ++
        (walkStmts tree.body).flatMap (node_chunks tree src fp ic)) ∧
      ((extract_imports tree src).map CodeChunk.start_line).Pairwise (· ≤ ·) ∧
      (∀ l e n b r, extract_class l e n b src fp ic = Except.ok r →
        ∃ hd, r = hd :: b.filterMap (method_chunk_of n src fp ic) ∧
          hd.chunk_type = "class" ∧ hd.start_line = l ∧
          ∀ m ∈ b.filterMap (method_chunk_of n src fp ic),
            m.chunk_type = "method" ∧ m.parent_context = some n) := by
  intro tree src fp ic cs h
  refine ⟨chunk_code_ok_eq h, ?_, ?_⟩
  · rw [extract_imports_eq_map, List.map_map, List.pairwise_map]
    have hsorted := sortedImports_pairwise tree
    rw [← importGroups_join tree] at hsorted
    have hpw := (List.pairwise_flatten.mp hsorted).2
    refine List.Pairwise.imp_of_mem ?_ hpw
    intro g1 g2 hg1 hg2 hall
    have hne1 := importGroups_nonempty tree g1 hg1
    have hne2 := importGroups_nonempty tree g2 hg2
    show (g1.headD defaultStmt).lineno ≤ (g2.headD defaultStmt).lineno
    have h1 : g1.headD defaultStmt ∈ g1 := by
      cases g1
      · simp at hne1
      · simp
    have h2 : g2.headD defaultStmt ∈ g2 := by
      cases g2
      · simp at hne2
      · simp
    exact hall _ h1 _ h2
  · intro l e n b r hr
    obtain ⟨hd, hreq, hdty, _, hsl, _, _, _, _, _⟩ := extract_class_ok hr
    refine ⟨hd, hreq, hdty, hsl, ?_⟩
    intro m hm
    obtain ⟨item, _, hmc⟩ := List.mem_filterMap.mp hm
    have hms := method_chunk_of_some hmc
    exact ⟨hms.1, hms.2.1⟩

set_option maxRecDepth 100000 in
/-- Claim C2, witness: the amended statement applied to imports on lines
1, 2 and 4: the import chunk start lines `[1, 4]` are ascending. -/
theorem claim_C2_witness :
    chunk_code (.ok exTreeImp) exSrcImp "t.py" true = Except.ok
      ((chunk_code (.ok exTreeImp) exSrcImp "t.py" true).toOption.getD []) ∧
    ((extract_imports exTreeImp exSrcImp).map CodeChunk.start_line).Pairwise
      (· ≤ ·) ∧
    (extract_imports exTreeImp exSrcImp).map CodeChunk.start_line = [1, 4] := by
  refine ⟨by decide, ?_, by decide⟩
  exact (claim_C2_theorem exTreeImp exSrcImp "t.py" true
    ((chunk_code (.ok exTreeImp) exSrcImp "t.py" true).toOption.getD [])
    (by decide)).2.1

/-- Claim C4: chunking is deterministic (two runs agree chunk for chunk on
`id`), every chunk's `id` is `md5(f"{file_path}:{start_line}:{content[:100]}")[:12]`
over the chunk's own fields, and the id depends on the content only through
its first 100 characters. -/
theorem claim_C4_theorem :
    ∀ (parsed : ParseResult) (src fp : String) (ic : Bool)
      (cs1 cs2 : List CodeChunk),
      chunk_code parsed src fp ic = Except.ok cs1 →
      chunk_code parsed src fp ic = Except.ok cs2 →
      cs1.length = cs2.length ∧ cs1.map CodeChunk.id = cs2.map CodeChunk.id ∧
      (∀ c ∈ cs1, c.id = chunk_id c.file_path c.start_line c.content) ∧
      (∀ (fp2 : String) (sl : Nat) (s1 s2 : String),
        strTake s1 100 = strTake s2 100 →
        chunk_id fp2 sl s1 = chunk_id fp2 sl s2) := by
  intro parsed src fp ic cs1 cs2 h1 h2
  have h12 : cs1 = cs2 := by
    rw [h1] at h2
    exact Except.ok.inj h2
  subst h12
  refine ⟨rfl, rfl, ?_, ?_⟩
  · intro c hc
    cases parsed with
    | syntaxError =>
      have hcs : cs1 = fallback_chunk src fp := by
        simp only [chunk_code] at h1
        exact (Except.ok.inj h1).symm
      subst hcs
      unfold fallback_chunk at hc
      obtain ⟨k, _, hk⟩ := List.mem_map.mp hc
      subst hk
      rfl
    | ok tree =>
      rcases chunk_provenance h1 hc with hA | hB | hC |
        ⟨l, e, n, b, r, _, hr, hcr⟩ | ⟨l, e, n, args, ret, b, _, _, hef⟩
      · exact (mem_module_docstring_chunks hA).2.2.2.2
      · exact (mem_extract_imports hB).2.2.2
      · exact (mem_extract_globals hC).2.2.2.2
      · obtain ⟨hd, hreq, _, _, _, _, _, _, _, hid⟩ := extract_class_ok hr
        rw [hreq] at hcr
        rcases List.mem_cons.mp hcr with rfl | hmem
        · exact hid
        · obtain ⟨item, _, hmc⟩ := List.mem_filterMap.mp hmem
          exact (method_chunk_of_some hmc).2.2.2.1
      · exact (extract_function_some hef).2.2.2.2.2.1
  · intro fp2 sl s1 s2 hpre
    unfold chunk_id
    rw [hpre]

set_option maxRecDepth 100000 in
/-- Claim C4, witness: the id law applied to a concrete run. -/
theorem claim_C4_witness :
    chunk_code (.ok exTreeFun) exSrcFun "f.py" true = Except.ok
      ((chunk_code (.ok exTreeFun) exSrcFun "f.py" true).toOption.getD []) ∧
    (∀ c ∈ (chunk_code (.ok exTreeFun) exSrcFun "f.py" true).toOption.getD [],
      c.id = chunk_id c.file_path c.start_line c.content) := by
  refine ⟨by decide, ?_⟩
  exact (claim_C4_theorem (.ok exTreeFun) exSrcFun "f.py" true
    ((chunk_code (.ok exTreeFun) exSrcFun "f.py" true).toOption.getD [])
    ((chunk_code (.ok exTreeFun) exSrcFun "f.py" true).toOption.getD [])
    (by decide) (by decide)).2.2.1

/-- Claim C7: imports are grouped by line contiguity.  The groups partition
the line-sorted import list in order; within a group adjacent statements are
at most one line apart; adjacent groups are separated by at least two lines;
each group becomes one chunk spanning its first to its last statement line
with `num_imports` equal to the group's statement count. -/
theorem claim_C7_theorem :
    ∀ (tree : Module) (src : String),
      (importGroups tree).flatten = sortedImports tree ∧
      (sortedImports tree).Pairwise
        (fun x y => Stmt.lineno x ≤ Stmt.lineno y) ∧
      (∀ g ∈ importGroups tree, g ≠ [] ∧
        g.Chain' (fun x y => Stmt.lineno y ≤ Stmt.lineno x + 1)) ∧
      (importGroups tree).Chain' (fun g1 g2 => ∀ a b, g1.getLast? = some a →
        g2.head? = some b → Stmt.lineno a + 2 ≤ Stmt.lineno b) ∧
      extract_imports tree src = (importGroups tree).map (fun g =>
        create_chunk (joinSep "\n" (g.filterMap get_import_statement))
          "import" (g.headD defaultStmt).lineno
          (g.getLastD defaultStmt).lineno src none
          [("num_imports",
            MetaVal.nat (g.filterMap get_import_statement).length)]) ∧
      (∀ g ∈ importGroups tree,
        (g.filterMap get_import_statement).length = g.length) := by
  intro tree src
  refine ⟨importGroups_join tree, sortedImports_pairwise tree, ?_,
    importGroups_gap tree, extract_imports_eq_map tree src, ?_⟩
  · intro g hg
    exact ⟨importGroups_nonempty tree g hg, importGroups_chain tree g hg⟩
  · intro g hg
    exact importLines_length (fun x hx => mem_importGroups_isImport hg hx)

/-- Claim C7, witness: imports on lines 1, 2 and 4 form two groups, with the
blank line splitting them; the chunks span lines 1-2 and 4-4 with
`num_imports` 2 and 1. -/
theorem claim_C7_witness :
    importGroups exTreeImp =
      [[Stmt.importStmt 1 1 ["os"], Stmt.importStmt 2 2 ["sys"]],
       [Stmt.importFrom 4 4 (some "typing") ["List"]]] ∧
    (importGroups exTreeImp).flatten = sortedImports exTreeImp ∧
    (extract_imports exTreeImp exSrcImp).map
      (fun c => (c.start_line, c.end_line, c.meta "num_imports")) =
      [(1, 2, some (MetaVal.nat 2)), (4, 4, some (MetaVal.nat 1))] := by
  refine ⟨by decide, (claim_C7_theorem exTreeImp exSrcImp).1, by decide⟩

theorem map_congr_mem {α β : Type} (f g : α → β) :
    ∀ (l : List α), (∀ a ∈ l, f a = g a) → l.map f = l.map g := by
  intro l
  induction l with
  | nil => intro _; rfl
  | cons a rest ih =>
    intro h
    rw [List.map_cons, List.map_cons, h a (List.mem_cons_self a rest),
      ih (fun x hx => h x (List.mem_cons_of_mem a hx))]

theorem sum_map_ite_eq_mul_count {α : Type} [DecidableEq α] (g : α) (v : Nat) :
    ∀ (l : List α),
      (l.map (fun a => if a = g then v else 0)).sum = v * l.count g := by
  intro l
  induction l with
  | nil => simp
  | cons a rest ih =>
    rw [List.map_cons, List.sum_cons, ih, List.count_cons]
    by_cases h : a = g
    · subst h
      simp only [if_pos rfl, beq_self_eq_true, if_true, Nat.mul_add,
        Nat.mul_one]
      exact Nat.add_comm _ _
    · simp [h, Ne.symm h]

theorem method_chunk_of_none_of_not_fun {cn src fp : String} {ic : Bool}
    {a : Stmt} (h : a.isFunctionDef = false) :
    method_chunk_of cn src fp ic a = none := by
  cases a <;> first
    | rfl
    | simp [Stmt.isFunctionDef] at h

theorem method_signature_of_none_of_not_fun {a : Stmt}
    (h : a.isFunctionDef = false) : method_signature_of a = none := by
  cases a <;> first
    | rfl
    | simp [Stmt.isFunctionDef] at h

theorem filterMap_eq_filterMap_filter {α β : Type} (f : α → Option β)
    (p : α → Bool) :
    ∀ (l : List α), (∀ a ∈ l, p a = false → f a = none) →
      l.filterMap f = (l.filter p).filterMap f := by
  intro l
  induction l with
  | nil => intro _; rfl
  | cons a rest ih =>
    intro h
    have hrest := ih (fun x hx hpx => h x (List.mem_cons_of_mem a hx) hpx)
    cases hp : p a with
    | false =>
      have h1 : f a = none := h a (List.mem_cons_self a rest) hp
      simp [List.filterMap_cons, List.filter_cons, h1, hp, hrest]
    | true =>
      cases hf : f a <;>
        simp [List.filterMap_cons, List.filter_cons, hp, hf, hrest]

theorem filterMap_length_filter {α β : Type} (f : α → Option β)
    (p : α → Bool) :
    ∀ (l : List α), (∀ a ∈ l, p a = true → f a ≠ none) →
      (∀ a ∈ l, p a = false → f a = none) →
      (l.filterMap f).length = (l.filter p).length := by
  intro l
  induction l with
  | nil => intro _ _; rfl
  | cons a rest ih =>
    intro h1 h2
    have ih' := ih (fun x hx => h1 x (List.mem_cons_of_mem a hx))
      (fun x hx => h2 x (List.mem_cons_of_mem a hx))
    rcases hp : p a with _ | _
    · rw [List.filterMap_cons,
        h2 a (List.mem_cons_self a rest) hp,
        List.filter_cons_of_neg (by simp [hp])]
      exact ih'
    · have hne := h1 a (List.mem_cons_self a rest) hp
      rcases hf : f a with _ | v
      · exact absurd hf hne
      · rw [List.filterMap_cons, hf,
          List.filter_cons_of_pos (by simp [hp]), List.length_cons,
          List.length_cons, ih']

/-- Claim C8: a class with N direct (sync) methods that is the tree's only
class carrying its name produces exactly one `class` chunk labelled with the
class name and exactly N `method` chunks whose `parent_context` is the class
name, and `parent_context` is `none` on every chunk that is not a method
chunk. -/
theorem claim_C8_theorem :
    ∀ (tree : Module) (src fp : String) (ic : Bool) (cs : List CodeChunk)
      (l e : Nat) (cn : String) (b : List Stmt),
      chunk_code (.ok tree) src fp ic = Except.ok cs →
      (walkStmts tree.body).count (Stmt.classDef l e cn b) = 1 →
      (∀ s ∈ walkStmts tree.body, s.isClassDefNamed cn = true →
        s = Stmt.classDef l e cn b) →
      (∀ item ∈ b, Stmt.isFunctionDef item = true →
        method_chunk_of cn src fp ic item ≠ none) →
      cs.countP (fun c => c.chunk_type == "class" &&
        c.meta "class_name" == some (MetaVal.str cn)) = 1 ∧
      cs.countP (fun c => c.chunk_type == "method" &&
        c.parent_context == some cn) = (b.filter Stmt.isFunctionDef).length ∧
      (∀ c ∈ cs, c.chunk_type ≠ "method" → c.parent_context = none) := by
  intro tree src fp ic cs l e cn b h hcount huniq htruthy
  obtain ⟨defs, hdefs⟩ := chunk_code_ok_defs h
  refine ⟨?_, ?_, ?_⟩
  · rw [chunk_code_ok_eq h, List.countP_append, List.countP_append,
      List.countP_append]
    have hA : (module_docstring_chunks tree fp).countP
        (fun c => c.chunk_type == "class" &&
          c.meta "class_name" == some (MetaVal.str cn)) = 0 := by
      rw [List.countP_eq_zero]
      intro a ha
      have := (mem_module_docstring_chunks ha).1
      simp [this]
    have hB : (extract_imports tree src).countP
        (fun c => c.chunk_type == "class" &&
          c.meta "class_name" == some (MetaVal.str cn)) = 0 := by
      rw [List.countP_eq_zero]
      intro a ha
      have := (mem_extract_imports ha).1
      simp [this]
    have hC : ((extract_globals tree src).toList).countP
        (fun c => c.chunk_type == "class" &&
          c.meta "class_name" == some (MetaVal.str cn)) = 0 := by
      rw [List.countP_eq_zero]
      intro a ha
      have := (mem_extract_globals ha).1
      simp [this]
    have hD : ((walkStmts tree.body).flatMap
        (node_chunks tree src fp ic)).countP
        (fun c => c.chunk_type == "class" &&
          c.meta "class_name" == some (MetaVal.str cn)) = 1 := by
      rw [countP_flatMap]
      rw [map_congr_mem _ (fun node =>
        if node = Stmt.classDef l e cn b then 1 else 0) _ ?_]
      · rw [sum_map_ite_eq_count, hcount]
      · intro node hnode
        cases node with
        | classDef l2 e2 n2 b2 =>
          obtain ⟨r, hr⟩ := defs_chunks_ok_classes hdefs hnode
          obtain ⟨hd, hreq, hdty, _, _, _, _, hmeta, _, _⟩ :=
            extract_class_ok hr
          simp only [node_chunks, hr, Except.toOption, Option.getD]
          rw [hreq, List.countP_cons]
          have hm0 : (b2.filterMap (method_chunk_of n2 src fp ic)).countP
              (fun c => c.chunk_type == "class" &&
                c.meta "class_name" == some (MetaVal.str cn)) = 0 := by
            rw [List.countP_eq_zero]
            intro m hm
            obtain ⟨item, _, hmc⟩ := List.mem_filterMap.mp hm
            have := (method_chunk_of_some hmc).1
            simp [this]
          rw [hm0]
          by_cases hn2 : n2 = cn
          · subst hn2
            have heq := huniq _ hnode (by simp [Stmt.isClassDefNamed])
            rw [if_pos heq]
            simp [hdty, hmeta]
          · have hne : Stmt.classDef l2 e2 n2 b2 ≠ Stmt.classDef l e cn b := by
              intro hx
              injection hx with h1 h2 h3 h4
              exact hn2 h3
            rw [if_neg hne]
            simp [hdty, hmeta, hn2]
        | functionDef l2 e2 n2 args2 ret2 b2 =>
          simp only [node_chunks]
          rw [if_neg (fun hx => Stmt.noConfusion hx)]
          split
          · rfl
          · rcases hef : extract_function l2 e2 n2 args2 b2 src fp with _ | fc
            · rfl
            · have := (extract_function_some hef).1
              simp [List.countP_cons, this]
        | importStmt l2 e2 n2 =>
          simp only [node_chunks]
          rw [if_neg (fun hx => Stmt.noConfusion hx)]
          rfl
        | importFrom l2 e2 mo2 n2 =>
          simp only [node_chunks]
          rw [if_neg (fun hx => Stmt.noConfusion hx)]
          rfl
        | assign l2 e2 t2 =>
          simp only [node_chunks]
          rw [if_neg (fun hx => Stmt.noConfusion hx)]
          rfl
        | annAssign l2 e2 t2 =>
          simp only [node_chunks]
          rw [if_neg (fun hx => Stmt.noConfusion hx)]
          rfl
        | asyncFunctionDef l2 e2 n2 a2 r2 b2 =>
          simp only [node_chunks]
          rw [if_neg (fun hx => Stmt.noConfusion hx)]
          rfl
        | exprConstStr l2 e2 v2 =>
          simp only [node_chunks]
          rw [if_neg (fun hx => Stmt.noConfusion hx)]
          rfl
        | other l2 e2 b2 =>
          simp only [node_chunks]
          rw [if_neg (fun hx => Stmt.noConfusion hx)]
          rfl
    rw [hA, hB, hC, hD]
  · rw [chunk_code_ok_eq h, List.countP_append, List.countP_append,
      List.countP_append]
    have hA : (module_docstring_chunks tree fp).countP
        (fun c => c.chunk_type == "method" &&
          c.parent_context == some cn) = 0 := by
      rw [List.countP_eq_zero]
      intro a ha
      have := (mem_module_docstring_chunks ha).1
      simp [this]
    have hB : (extract_imports tree src).countP
        (fun c => c.chunk_type == "method" &&
          c.parent_context == some cn) = 0 := by
      rw [List.countP_eq_zero]
      intro a ha
      have := (mem_extract_imports ha).1
      simp [this]
    have hC : ((extract_globals tree src).toList).countP
        (fun c => c.chunk_type == "method" &&
          c.parent_context == some cn) = 0 := by
      rw [List.countP_eq_zero]
      intro a ha
      have := (mem_extract_globals ha).1
      simp [this]
    have hD : ((walkStmts tree.body).flatMap
        (node_chunks tree src fp ic)).countP
        (fun c => c.chunk_type == "method" &&
          c.parent_context == some cn) =
        (b.filter Stmt.isFunctionDef).length := by
      rw [countP_flatMap]
      rw [map_congr_mem _ (fun node =>
        if node = Stmt.classDef l e cn b then
          (b.filter Stmt.isFunctionDef).length else 0) _ ?_]
      · rw [sum_map_ite_eq_mul_count, hcount, Nat.mul_one]
      · intro node hnode
        cases node with
        | classDef l2 e2 n2 b2 =>
          obtain ⟨r, hr⟩ := defs_chunks_ok_classes hdefs hnode
          obtain ⟨hd, hreq, hdty, _, _, _, _, _, _, _⟩ :=
            extract_class_ok hr
          simp only [node_chunks, hr, Except.toOption, Option.getD]
          rw [hreq, List.countP_cons]
          have hhd0 : (hd.chunk_type == "method" &&
              hd.parent_context == some cn) = false := by
            simp [hdty]
          rw [hhd0, if_neg Bool.false_ne_true, Nat.add_zero]
          by_cases hn2 : n2 = cn
          · have heq : Stmt.classDef l2 e2 n2 b2 = Stmt.classDef l e cn b :=
              huniq _ hnode (by simp [Stmt.isClassDefNamed, hn2])
            rw [if_pos heq]
            have hinj : l2 = l ∧ e2 = e ∧ n2 = cn ∧ b2 = b := by
              injection heq with h1 h2 h3 h4
              exact ⟨h1, h2, h3, h4⟩
            rw [hinj.2.2.1, hinj.2.2.2]
            have hall : (b.filterMap (method_chunk_of cn src fp ic)).countP
                (fun c => c.chunk_type == "method" &&
                  c.parent_context == some cn) =
                (b.filterMap (method_chunk_of cn src fp ic)).length := by
              rw [List.countP_eq_length]
              intro m hm
              obtain ⟨item, _, hmc⟩ := List.mem_filterMap.mp hm
              have h1 := (method_chunk_of_some hmc).1
              have h2 := (method_chunk_of_some hmc).2.1
              simp [h1, h2]
            rw [hall]
            exact filterMap_length_filter _ _ b htruthy
              (fun a _ ha => method_chunk_of_none_of_not_fun ha)
          · have hne : Stmt.classDef l2 e2 n2 b2 ≠
                Stmt.classDef l e cn b := by
              intro hx
              injection hx with h1 h2 h3 h4
              exact hn2 h3
            rw [if_neg hne]
            rw [List.countP_eq_zero]
            intro m hm
            obtain ⟨item, _, hmc⟩ := List.mem_filterMap.mp hm
            have h2 := (method_chunk_of_some hmc).2.1
            simp [h2, hn2]
        | functionDef l2 e2 n2 args2 ret2 b2 =>
          simp only [node_chunks]
          rw [if_neg (fun hx => Stmt.noConfusion hx)]
          split
          · rfl
          · rcases hef : extract_function l2 e2 n2 args2 b2 src fp with _ | fc
            · rfl
            · have := (extract_function_some hef).1
              simp [List.countP_cons, this]
        | importStmt l2 e2 n2 =>
          simp only [node_chunks]
          rw [if_neg (fun hx => Stmt.noConfusion hx)]
          rfl
        | importFrom l2 e2 mo2 n2 =>
          simp only [node_chunks]
          rw [if_neg (fun hx => Stmt.noConfusion hx)]
          rfl
        | assign l2 e2 t2 =>
          simp only [node_chunks]
          rw [if_neg (fun hx => Stmt.noConfusion hx)]
          rfl
        | annAssign l2 e2 t2 =>
          simp only [node_chunks]
          rw [if_neg (fun hx => Stmt.noConfusion hx)]
          rfl
        | asyncFunctionDef l2 e2 n2 a2 r2 b2 =>
          simp only [node_chunks]
          rw [if_neg (fun hx => Stmt.noConfusion hx)]
          rfl
        | exprConstStr l2 e2 v2 =>
          simp only [node_chunks]
          rw [if_neg (fun hx => Stmt.noConfusion hx)]
          rfl
        | other l2 e2 b2 =>
          simp only [node_chunks]
          rw [if_neg (fun hx => Stmt.noConfusion hx)]
          rfl
    rw [hA, hB, hC, hD]
    omega
  · intro c hc hcm
    rcases chunk_provenance h hc with hA | hB | hC |
      ⟨l2, e2, n2, b2, r, _, hr, hcr⟩ | ⟨l2, e2, n2, args2, ret2, b2, _, _, hef⟩
    · exact (mem_module_docstring_chunks hA).2.1
    · exact (mem_extract_imports hB).2.1
    · exact (mem_extract_globals hC).2.1
    · obtain ⟨hd, hreq, _, hpc, _, _, _, _, _, _⟩ := extract_class_ok hr
      rw [hreq] at hcr
      rcases List.mem_cons.mp hcr with rfl | hmem
      · exact hpc
      · obtain ⟨item, _, hmc⟩ := List.mem_filterMap.mp hmem
        exact absurd (method_chunk_of_some hmc).1 hcm
    · exact (extract_function_some hef).2.1

set_option maxRecDepth 200000 in
/-- Claim C8, witness: a class `C` with one method `m` yields one `class`
chunk and one `method` chunk with `parent_context = some "C"`. -/
theorem claim_C8_witness :
    chunk_code (.ok exTreeClass) exSrcClass "f.py" true = Except.ok
      ((chunk_code (.ok exTreeClass) exSrcClass "f.py" true).toOption.getD []) ∧
    ((chunk_code (.ok exTreeClass) exSrcClass "f.py" true).toOption.getD
      []).countP (fun c => c.chunk_type == "class" &&
        c.meta "class_name" == some (MetaVal.str "C")) = 1 ∧
    ((chunk_code (.ok exTreeClass) exSrcClass "f.py" true).toOption.getD
      []).countP (fun c => c.chunk_type == "method" &&
        c.parent_context == some "C") =
      (([Stmt.functionDef 2 3 "m" ["self"] false [Stmt.other 3 3 []]]).filter
        Stmt.isFunctionDef).length := by
  have hthm := claim_C8_theorem exTreeClass exSrcClass "f.py" true
    ((chunk_code (.ok exTreeClass) exSrcClass "f.py" true).toOption.getD [])
    1 3 "C" [Stmt.functionDef 2 3 "m" ["self"] false [Stmt.other 3 3 []]]
    (by decide) (by decide) (by decide) (by decide)
  exact ⟨by decide, hthm.1, hthm.2.1⟩

/-- Claim C9, amended: every `function` chunk of a structural run comes from
a sync `FunctionDef` that the code's nestedness check classifies as
non-nested (`_is_nested_function` only sees `ClassDef` and sync
`FunctionDef` containers), so a function nested directly inside a plain
function and not sitting directly in a class body never appears; and a
non-nested function with a truthy source slice that is the only function
definition at its line appears as exactly one `function` chunk.  A function
nested only inside an `async def` is still emitted (see the
counterexample). -/
theorem claim_C9_theorem :
    (∀ (tree : Module) (src fp : String) (ic : Bool) (cs : List CodeChunk),
      chunk_code (.ok tree) src fp ic = Except.ok cs →
      ∀ c ∈ cs, c.chunk_type = "function" →
        ∃ l e n args ret b,
          (Stmt.functionDef l e n args ret b) ∈ walkStmts tree.body ∧
          is_nested_function tree (Stmt.functionDef l e n args ret b) =
            false ∧
          extract_function l e n args b src fp = some c) ∧
    (∀ (tree : Module) (src fp : String) (ic : Bool) (cs : List CodeChunk)
      (l e : Nat) (n : String) (args : List String) (ret : Bool)
      (b : List Stmt),
      chunk_code (.ok tree) src fp ic = Except.ok cs →
      (Stmt.functionDef l e n args ret b) ∈ tree.body →
      is_nested_function tree (Stmt.functionDef l e n args ret b) = false →
      (walkStmts tree.body).count (Stmt.functionDef l e n args ret b) = 1 →
      (∀ s ∈ walkStmts tree.body, s.isFunctionDef = true → s.lineno = l →
        s = Stmt.functionDef l e n args ret b) →
      (∃ fc, extract_function l e n args b src fp = some fc) →
      cs.countP (fun c => c.chunk_type == "function" &&
        c.start_line == l) = 1) := by
  constructor
  · intro tree src fp ic cs h c hc hcf
    rcases chunk_provenance h hc with hA | hB | hC |
      ⟨l2, e2, n2, b2, r, _, hr, hcr⟩ |
      ⟨l2, e2, n2, args2, ret2, b2, hm, hn, hef⟩
    · exact absurd ((mem_module_docstring_chunks hA).1.symm.trans hcf)
        (by decide)
    · exact absurd ((mem_extract_imports hB).1.symm.trans hcf) (by decide)
    · exact absurd ((mem_extract_globals hC).1.symm.trans hcf) (by decide)
    · obtain ⟨hd, hreq, hdty, _, _, _, _, _, _, _⟩ := extract_class_ok hr
      rw [hreq] at hcr
      rcases List.mem_cons.mp hcr with rfl | hmem
      · exact absurd (hdty.symm.trans hcf) (by decide)
      · obtain ⟨item, _, hmc⟩ := List.mem_filterMap.mp hmem
        exact absurd ((method_chunk_of_some hmc).1.symm.trans hcf)
          (by decide)
    · exact ⟨l2, e2, n2, args2, ret2, b2, hm, hn, hef⟩
  · intro tree src fp ic cs l e n args ret b h hmem hnn hcount huniq hex
    obtain ⟨defs, hdefs⟩ := chunk_code_ok_defs h
    obtain ⟨fc, hfc⟩ := hex
    rw [chunk_code_ok_eq h, List.countP_append, List.countP_append,
      List.countP_append]
    have hA : (module_docstring_chunks tree fp).countP
        (fun c => c.chunk_type == "function" && c.start_line == l) = 0 := by
      rw [List.countP_eq_zero]
      intro a ha
      have := (mem_module_docstring_chunks ha).1
      simp [this]
    have hB : (extract_imports tree src).countP
        (fun c => c.chunk_type == "function" && c.start_line == l) = 0 := by
      rw [List.countP_eq_zero]
      intro a ha
      have := (mem_extract_imports ha).1
      simp [this]
    have hC : ((extract_globals tree src).toList).countP
        (fun c => c.chunk_type == "function" && c.start_line == l) = 0 := by
      rw [List.countP_eq_zero]
      intro a ha
      have := (mem_extract_globals ha).1
      simp [this]
    have hD : ((walkStmts tree.body).flatMap
        (node_chunks tree src fp ic)).countP
        (fun c => c.chunk_type == "function" && c.start_line == l) = 1 := by
      rw [countP_flatMap]
      rw [map_congr_mem _ (fun node =>
        if node = Stmt.functionDef l e n args ret b then 1 else 0) _ ?_]
      · rw [sum_map_ite_eq_count, hcount]
      · intro node hnode
        cases node with
        | classDef l2 e2 n2 b2 =>
          obtain ⟨r, hr⟩ := defs_chunks_ok_classes hdefs hnode
          obtain ⟨hd, hreq, hdty, _, _, _, _, _, _, _⟩ :=
            extract_class_ok hr
          simp only [node_chunks, hr, Except.toOption, Option.getD]
          rw [if_neg (fun hx => Stmt.noConfusion hx), hreq,
            List.countP_cons]
          have h1 : (hd.chunk_type == "function" && hd.start_line == l) =
              false := by
            simp [hdty]
          rw [h1, if_neg Bool.false_ne_true, Nat.add_zero,
            List.countP_eq_zero]
          intro m hm
          obtain ⟨item, _, hmc⟩ := List.mem_filterMap.mp hm
          have := (method_chunk_of_some hmc).1
          simp [this]
        | functionDef l2 e2 n2 args2 ret2 b2 =>
          simp only [node_chunks]
          by_cases hng : Stmt.functionDef l2 e2 n2 args2 ret2 b2 =
              Stmt.functionDef l e n args ret b
          · rw [if_pos hng]
            have hinj : l2 = l ∧ e2 = e ∧ n2 = n ∧ args2 = args ∧
                ret2 = ret ∧ b2 = b := by
              injection hng with g1 g2 g3 g4 g5 g6
              exact ⟨g1, g2, g3, g4, g5, g6⟩
            rw [hinj.1, hinj.2.1, hinj.2.2.1, hinj.2.2.2.1, hinj.2.2.2.2.1,
              hinj.2.2.2.2.2, hnn, if_neg Bool.false_ne_true, hfc]
            have hps := extract_function_some hfc
            simp [List.countP_cons, hps.1, hps.2.2.2.1]
          · rw [if_neg hng]
            split
            · rfl
            · rcases hef2 : extract_function l2 e2 n2 args2 b2 src fp
                with _ | fc2
              · rfl
              · have hps := extract_function_some hef2
                have hl2 : l2 ≠ l := by
                  intro heq
                  subst heq
                  exact hng (huniq _ hnode rfl rfl)
                simp [List.countP_cons, hps.1, hps.2.2.2.1, hl2]
        | importStmt l2 e2 n2 =>
          simp only [node_chunks]
          rw [if_neg (fun hx => Stmt.noConfusion hx)]
          rfl
        | importFrom l2 e2 mo2 n2 =>
          simp only [node_chunks]
          rw [if_neg (fun hx => Stmt.noConfusion hx)]
          rfl
        | assign l2 e2 t2 =>
          simp only [node_chunks]
          rw [if_neg (fun hx => Stmt.noConfusion hx)]
          rfl
        | annAssign l2 e2 t2 =>
          simp only [node_chunks]
          rw [if_neg (fun hx => Stmt.noConfusion hx)]
          rfl
        | asyncFunctionDef l2 e2 n2 a2 r2 b2 =>
          simp only [node_chunks]
          rw [if_neg (fun hx => Stmt.noConfusion hx)]
          rfl
        | exprConstStr l2 e2 v2 =>
          simp only [node_chunks]
          rw [if_neg (fun hx => Stmt.noConfusion hx)]
          rfl
        | other l2 e2 b2 =>
          simp only [node_chunks]
          rw [if_neg (fun hx => Stmt.noConfusion hx)]
          rfl
    rw [hA, hB, hC, hD]

set_option maxRecDepth 400000 in
/-- Claim C9, witness: the amended statement applied to a single top-level
function: exactly one `function` chunk starts at its line. -/
theorem claim_C9_witness :
    chunk_code (.ok exTreeFun) exSrcFun "f.py" true = Except.ok
      ((chunk_code (.ok exTreeFun) exSrcFun "f.py" true).toOption.getD []) ∧
    ((chunk_code (.ok exTreeFun) exSrcFun "f.py" true).toOption.getD
      []).countP (fun c => c.chunk_type == "function" &&
        c.start_line == 1) = 1 := by
  refine ⟨by decide, ?_⟩
  exact claim_C9_theorem.2 exTreeFun exSrcFun "f.py" true
    ((chunk_code (.ok exTreeFun) exSrcFun "f.py" true).toOption.getD [])
    1 2 "f" [] false [Stmt.other 2 2 []]
    (by decide) (by decide) (by decide) (by decide) (by decide)
    ⟨(extract_function 1 2 "f" [] [Stmt.other 2 2 []] exSrcFun
      "f.py").get (by decide), by decide⟩

/-- Claim C10: an `async def` is never emitted as a chunk — every `function`
chunk stems from a sync `FunctionDef` node, every `method` chunk stems from
a sync `FunctionDef` directly in some class body, and within a class the
`num_methods` metadata counts only sync `FunctionDef` items, non-sync items
(async methods included) contributing no method chunk at all; moreover the
class-overview chunk's content is the class header (plus docstring block)
followed by a `# Methods:` section whose signature rows are
`b.filterMap method_signature_of`, a list that is invariant under deleting
every non-sync item and to which non-sync items (async methods included)
contribute nothing. -/
theorem claim_C10_theorem :
    (∀ (tree : Module) (src fp : String) (ic : Bool) (cs : List CodeChunk),
      chunk_code (.ok tree) src fp ic = Except.ok cs →
      ∀ c ∈ cs,
        (c.chunk_type = "function" →
          ∃ l e n args ret b,
            (Stmt.functionDef l e n args ret b) ∈ walkStmts tree.body ∧
            c.start_line = l) ∧
        (c.chunk_type = "method" →
          ∃ cl ce cn cb, (Stmt.classDef cl ce cn cb) ∈ walkStmts tree.body ∧
            ∃ ml me mn margs mret mbody,
              (Stmt.functionDef ml me mn margs mret mbody) ∈ cb ∧
              c.start_line = ml ∧
              c.meta "method_name" = some (MetaVal.str mn))) ∧
    (∀ (l e : Nat) (cn : String) (b : List Stmt) (src fp : String)
      (ic : Bool) (r : List CodeChunk),
      extract_class l e cn b src fp ic = Except.ok r →
      ∃ hd, r = hd :: b.filterMap (method_chunk_of cn src fp ic) ∧
        hd.meta "num_methods" =
          some (MetaVal.nat (b.filter Stmt.isFunctionDef).length) ∧
        (∀ a ∈ b, Stmt.isFunctionDef a = false →
          method_chunk_of cn src fp ic a = none)) ∧
    (∀ (l e : Nat) (cn : String) (b : List Stmt) (src fp : String)
      (ic : Bool) (r : List CodeChunk),
      extract_class l e cn b src fp ic = Except.ok r →
      ∃ hd t hdr, r = hd :: t ∧
        get_node_source_header l e b src = some hdr ∧
        hd.content =
          (let overview1 :=
            match get_docstring b with
            | some ds =>
              if ds = "" then hdr
              else hdr ++ "\n    \"\"\"" ++ ds ++ "\"\"\""
            | none => hdr
          if b.filterMap method_signature_of = [] then overview1
          else overview1 ++ "\n\n    # Methods:\n" ++
            joinSep "\n" (b.filterMap method_signature_of)) ∧
        b.filterMap method_signature_of =
          (b.filter Stmt.isFunctionDef).filterMap method_signature_of ∧
        (∀ a ∈ b, Stmt.isFunctionDef a = false →
          method_signature_of a = none)) := by
  refine ⟨?_, ?_, ?_⟩
  · intro tree src fp ic cs h c hc
    constructor
    · intro hcf
      rcases chunk_provenance h hc with hA | hB | hC |
        ⟨l2, e2, n2, b2, r, _, hr, hcr⟩ |
        ⟨l2, e2, n2, args2, ret2, b2, hm, _, hef⟩
      · exact absurd ((mem_module_docstring_chunks hA).1.symm.trans hcf)
          (by decide)
      · exact absurd ((mem_extract_imports hB).1.symm.trans hcf) (by decide)
      · exact absurd ((mem_extract_globals hC).1.symm.trans hcf) (by decide)
      · obtain ⟨hd, hreq, hdty, _, _, _, _, _, _, _⟩ := extract_class_ok hr
        rw [hreq] at hcr
        rcases List.mem_cons.mp hcr with rfl | hmem
        · exact absurd (hdty.symm.trans hcf) (by decide)
        · obtain ⟨item, _, hmc⟩ := List.mem_filterMap.mp hmem
          exact absurd ((method_chunk_of_some hmc).1.symm.trans hcf)
            (by decide)
      · exact ⟨l2, e2, n2, args2, ret2, b2, hm,
          (extract_function_some hef).2.2.2.1⟩
    · intro hcm
      rcases chunk_provenance h hc with hA | hB | hC |
        ⟨l2, e2, n2, b2, r, hnode, hr, hcr⟩ |
        ⟨l2, e2, n2, args2, ret2, b2, _, _, hef⟩
      · exact absurd ((mem_module_docstring_chunks hA).1.symm.trans hcm)
          (by decide)
      · exact absurd ((mem_extract_imports hB).1.symm.trans hcm) (by decide)
      · exact absurd ((mem_extract_globals hC).1.symm.trans hcm) (by decide)
      · obtain ⟨hd, hreq, hdty, _, _, _, _, _, _, _⟩ := extract_class_ok hr
        rw [hreq] at hcr
        rcases List.mem_cons.mp hcr with rfl | hmem
        · exact absurd (hdty.symm.trans hcm) (by decide)
        · obtain ⟨item, hitem, hmc⟩ := List.mem_filterMap.mp hmem
          obtain ⟨_, _, _, _, ml, me, mn, margs, mret, mbody, hiteq, hsl, _,
            hmeta, _⟩ := method_chunk_of_some hmc
          rw [hiteq] at hitem
          exact ⟨l2, e2, n2, b2, hnode, ml, me, mn, margs, mret, mbody,
            hitem, hsl, hmeta⟩
      · exact absurd ((extract_function_some hef).1.symm.trans hcm)
          (by decide)
  · intro l e cn b src fp ic r hr
    obtain ⟨hd, hreq, _, _, _, _, _, _, hnm, _⟩ := extract_class_ok hr
    exact ⟨hd, hreq, hnm, fun a _ ha => method_chunk_of_none_of_not_fun ha⟩
  · intro l e cn b src fp ic r hr
    unfold extract_class at hr
    split at hr
    · exact absurd hr (by simp)
    · rename_i hdr hhdr
      rw [Except.ok.injEq] at hr
      subst hr
      exact ⟨_, _, hdr, rfl, hhdr, rfl,
        filterMap_eq_filterMap_filter method_signature_of Stmt.isFunctionDef
          b (fun a _ ha => method_signature_of_none_of_not_fun ha),
        fun a _ ha => method_signature_of_none_of_not_fun ha⟩

set_option maxRecDepth 400000 in
/-- Claim C10, witness: a class whose only member is an async method yields
a class chunk with `num_methods = 0`, no method chunk, and an empty
method-signature list, so its overview content carries no signature row. -/
theorem claim_C10_witness :
    extract_class 1 3 "D" [Stmt.asyncFunctionDef 2 3 "am" ["self"] false
        [Stmt.other 3 3 []]] exSrcAsyncM "f.py" true = Except.ok
      ((extract_class 1 3 "D" [Stmt.asyncFunctionDef 2 3 "am" ["self"] false
        [Stmt.other 3 3 []]] exSrcAsyncM "f.py" true).toOption.getD []) ∧
    (∃ hd, (extract_class 1 3 "D" [Stmt.asyncFunctionDef 2 3 "am" ["self"]
        false [Stmt.other 3 3 []]] exSrcAsyncM "f.py"
        true).toOption.getD [] =
        hd :: ([Stmt.asyncFunctionDef 2 3 "am" ["self"] false
          [Stmt.other 3 3 []]]).filterMap
          (method_chunk_of "D" exSrcAsyncM "f.py" true) ∧
      hd.meta "num_methods" = some (MetaVal.nat
        (([Stmt.asyncFunctionDef 2 3 "am" ["self"] false
          [Stmt.other 3 3 []]]).filter Stmt.isFunctionDef).length) ∧
      (∀ a ∈ [Stmt.asyncFunctionDef 2 3 "am" ["self"] false
          [Stmt.other 3 3 []]], Stmt.isFunctionDef a = false →
        method_chunk_of "D" exSrcAsyncM "f.py" true a = none)) ∧
    ([Stmt.asyncFunctionDef 2 3 "am" ["self"] false
      [Stmt.other 3 3 []]]).filterMap
      (method_chunk_of "D" exSrcAsyncM "f.py" true) = [] ∧
    (([Stmt.asyncFunctionDef 2 3 "am" ["self"] false
      [Stmt.other 3 3 []]]).filter Stmt.isFunctionDef).length = 0 ∧
    (∃ hd t hdr,
      (extract_class 1 3 "D" [Stmt.asyncFunctionDef 2 3 "am" ["self"] false
        [Stmt.other 3 3 []]] exSrcAsyncM "f.py" true).toOption.getD [] =
        hd :: t ∧
      get_node_source_header 1 3 [Stmt.asyncFunctionDef 2 3 "am" ["self"]
        false [Stmt.other 3 3 []]] exSrcAsyncM = some hdr ∧
      hd.content =
        (let overview1 :=
          match get_docstring [Stmt.asyncFunctionDef 2 3 "am" ["self"] false
            [Stmt.other 3 3 []]] with
          | some ds =>
            if ds = "" then hdr
            else hdr ++ "\n    \"\"\"" ++ ds ++ "\"\"\""
          | none => hdr
        if ([Stmt.asyncFunctionDef 2 3 "am" ["self"] false
            [Stmt.other 3 3 []]]).filterMap method_signature_of = []
        then overview1
        else overview1 ++ "\n\n    # Methods:\n" ++
          joinSep "\n" (([Stmt.asyncFunctionDef 2 3 "am" ["self"] false
            [Stmt.other 3 3 []]]).filterMap method_signature_of)) ∧
      ([Stmt.asyncFunctionDef 2 3 "am" ["self"] false
        [Stmt.other 3 3 []]]).filterMap method_signature_of =
        (([Stmt.asyncFunctionDef 2 3 "am" ["self"] false
          [Stmt.other 3 3 []]]).filter Stmt.isFunctionDef).filterMap
          method_signature_of ∧
      (∀ a ∈ [Stmt.asyncFunctionDef 2 3 "am" ["self"] false
          [Stmt.other 3 3 []]], Stmt.isFunctionDef a = false →
        method_signature_of a = none)) ∧
    ([Stmt.asyncFunctionDef 2 3 "am" ["self"] false
      [Stmt.other 3 3 []]]).filterMap method_signature_of = [] := by
  refine ⟨by decide, ?_, by decide, by decide, ?_, by decide⟩
  · exact claim_C10_theorem.2.1 1 3 "D"
      [Stmt.asyncFunctionDef 2 3 "am" ["self"] false [Stmt.other 3 3 []]]
      exSrcAsyncM "f.py" true
      ((extract_class 1 3 "D" [Stmt.asyncFunctionDef 2 3 "am" ["self"] false
        [Stmt.other 3 3 []]] exSrcAsyncM "f.py" true).toOption.getD [])
      (by decide)
  · exact claim_C10_theorem.2.2 1 3 "D"
      [Stmt.asyncFunctionDef 2 3 "am" ["self"] false [Stmt.other 3 3 []]]
      exSrcAsyncM "f.py" true
      ((extract_class 1 3 "D" [Stmt.asyncFunctionDef 2 3 "am" ["self"] false
        [Stmt.other 3 3 []]] exSrcAsyncM "f.py" true).toOption.getD [])
      (by decide)

end Chunker
